import Mathlib

/-!
Verification of the partitioning and discovery core of the `exo-larson`
repository.

The Python sources `exo/topology/advanced_strategy.py`,
`exo/topology/advanced_partitioning_strategy.py` and
`exo/networking/udp/udp_discovery.py` are embedded shallowly:

* Python floats become exact rationals (`ℚ`); `round(x, 5)` becomes
  `round5` below.  The tolerances appearing in the code (`1e-6`,
  `1e-4`, `1e-5`) are large compared to the rounding granularity, so
  the rational embedding is faithful to the algorithms.
* Python dicts (which preserve insertion order and update values
  in place) become association lists with in-place value update.
* Code that can raise (`ZeroDivisionError`, `ValueError` on
  `max`/`min` of an empty collection, `KeyError`/`TypeError` on JSON
  subscripting) returns `Option`/`Except`; `none`/`error` models an
  uncaught exception.
* The repository files `topology.py`, `partitioning_strategy.py` and
  `device_capabilities.py` are not part of the provided sources; the
  data carriers they declare (`Topology`, `Partition`,
  `DeviceCapabilities`, `DeviceFlops`) are modelled from the
  specification, as marked on their doc comments.  Node ids (opaque
  strings used only as dict keys and sort keys) are modelled as `ℕ`.
-/

namespace ExoLarson

/-- Modelled from the spec: `device_capabilities.py` is not under the
provided sources.  "DeviceFlops: triple of nonnegative reals
(fp32, fp16, int8)". -/
structure DeviceFlops where
  fp32 : ℚ
  fp16 : ℚ
  int8 : ℚ
deriving DecidableEq

/-- Modelled from the spec: `device_capabilities.py` is not under the
provided sources.  "DeviceCapabilities: {model, chip, memory, flops}". -/
structure DeviceCapabilities where
  model : String
  chip : String
  memory : ℚ
  flops : DeviceFlops
deriving DecidableEq

/-- Modelled from the spec: `topology.py` is not under the provided
sources.  `nodes` lists `(id, capabilities)` pairs in insertion order
(`all_nodes()` iterates deterministically); `latency` is the total
`get_latency` read-out (the spec lets implementations choose a sentinel
for absent pairs, so an arbitrary total function is the faithful
quantification). -/
structure Topology where
  nodes : List (Nat × DeviceCapabilities)
  latency : Nat → Nat → ℚ

/-- Modelled from the spec: `partitioning_strategy.py` is not under the
provided sources.  "Partition: {node_id, start, end}".  The field `end`
is a Lean keyword and is called `stop` here. -/
structure Partition where
  nodeId : Nat
  start : ℚ
  stop : ℚ
deriving DecidableEq

/-- Embeds Python `round(x, 5)` on the exact rationals.  (Python uses
round-half-to-even on binary floats; the two agree except at exact
half-ties at the fifth decimal, which none of the theorems below
exercise.) -/
def round5 (x : ℚ) : ℚ := (round (x * 100000) : ℤ) / 100000

/-- Width of one partition, `p.end - p.start` in the source. -/
def Partition.width (p : Partition) : ℚ := p.stop - p.start

namespace AdvancedStrategy

/-- Per-device record built at the top of `AdvancedStrategy.partition`:
`{'flops': cap.flops.fp32, 'memory': cap.memory, 'max_fraction': …}`. -/
structure Info where
  flops : ℚ
  memory : ℚ
  maxFraction : ℚ
deriving DecidableEq

/-- Threshold `1e-6` from the source. -/
def eps : ℚ := 1 / 1000000

/-- Value `total_layers = 1.0` from the source. -/
def totalLayers : ℚ := 1

/-- Association-list lookup (first match), embedding Python dict
read-out; keys are unique wherever the source reads them. -/
def alookup {β : Type} : List (Nat × β) → Nat → Option β
  | [], _ => none
  | p :: rest, id => if p.1 = id then some p.2 else alookup rest id

/-- Value looked up by `partitions[node_id]` (the key is always present
when the source reads it; the default is never exercised then). -/
def getPart (parts : List (Nat × ℚ)) (id : Nat) : ℚ :=
  (alookup parts id).getD 0

/-- Value looked up by `device_info[node_id]`. -/
def getInfo (info : List (Nat × Info)) (id : Nat) : Info :=
  (alookup info id).getD ⟨0, 0, 0⟩

/-- Dict assignment `partitions[node_id] = v` for a key already present:
updates the value in place, keeping insertion order. -/
def setPart (parts : List (Nat × ℚ)) (id : Nat) (v : ℚ) : List (Nat × ℚ) :=
  parts.map fun p => if p.1 = id then (p.1, v) else p

/-- Builds `device_info` including the `max_fraction` update performed
under `if model_memory_requirement:` (so `None` and `0` both leave the
cap at `1.0`, matching Python truthiness). -/
def mkDeviceInfo (nodes : List (Nat × DeviceCapabilities)) (M : Option ℚ) :
    List (Nat × Info) :=
  nodes.map fun p =>
    (p.1,
      { flops := p.2.flops.fp32
        memory := p.2.memory
        maxFraction :=
          match M with
          | none => 1
          | some m => if m = 0 then 1 else min 1 (p.2.memory / m) })

/-- First loop of `_optimize_throughput` / `_optimize_balanced`:
`assigned = min(flops / total_flops * total_layers, max_fraction)`. -/
def initProportional (info : List (Nat × Info)) (total : ℚ) :
    List (Nat × ℚ) :=
  info.map fun p => (p.1, min (p.2.flops / total * totalLayers) p.2.maxFraction)

/-- The `available_devices` filter from the redistribution loop. -/
def availableDevices (info : List (Nat × Info)) (parts : List (Nat × ℚ)) :
    List (Nat × Info) :=
  info.filter fun p => getPart parts p.1 < p.2.maxFraction - eps

/-- Body of the inner `for` of the redistribution loop; note that the
source decrements `unassigned_layers` inside the loop, so later devices
see the reduced remainder. -/
def passStep (totalAvail : ℚ) (st : List (Nat × ℚ) × ℚ) (p : Nat × Info) :
    List (Nat × ℚ) × ℚ :=
  let cur := getPart st.1 p.1
  let availFrac := p.2.maxFraction - cur
  let share := p.2.flops / totalAvail * st.2
  let a := min share availFrac
  (setPart st.1 p.1 (cur + a), st.2 - a)

/-- The `while unassigned_layers > 1e-6` redistribution loop shared by
`_optimize_throughput` and `_optimize_balanced`.  The loop is embedded
with explicit fuel; `none` models the `ZeroDivisionError` raised when
the available devices have zero total FLOPS.  Every theorem below only
exercises runs in which the loop exits through its own guard or its
`break` well within the fuel. -/
def redistribute (info : List (Nat × Info)) :
    Nat → List (Nat × ℚ) × ℚ → Option (List (Nat × ℚ) × ℚ)
  | 0, st => some st
  | fuel + 1, (parts, un) =>
    if un > eps then
      let avail := availableDevices info parts
      if avail = [] then some (parts, un)
      else
        let totalAvail := (avail.map (·.2.flops)).sum
        if totalAvail = 0 then none
        else redistribute info fuel (avail.foldl (passStep totalAvail) (parts, un))
    else some (parts, un)

/-- Fuel for `redistribute`; see its doc comment. -/
def redistFuel : Nat := 1000

theorem redistribute_of_not_gt (info : List (Nat × Info)) (fuel : Nat)
    (parts : List (Nat × ℚ)) (un : ℚ) (hf : fuel ≠ 0) (h : ¬ un > eps) :
    redistribute info fuel (parts, un) = some (parts, un) := by
  cases fuel with
  | zero => exact absurd rfl hf
  | succ n => simp only [redistribute, if_neg h]

theorem redistribute_of_avail_nil (info : List (Nat × Info)) (fuel : Nat)
    (parts : List (Nat × ℚ)) (un : ℚ) (hf : fuel ≠ 0)
    (h2 : availableDevices info parts = []) :
    redistribute info fuel (parts, un) = some (parts, un) := by
  cases fuel with
  | zero => exact absurd rfl hf
  | succ n =>
    by_cases h : un > eps
    · simp [redistribute, if_pos h, h2]
    · simp only [redistribute, if_neg h]

/-- Final clamp `partitions[id] = min(fraction, max_fraction)` closing
`_optimize_throughput` and `_optimize_balanced`. -/
def clampToMax (info : List (Nat × Info)) (parts : List (Nat × ℚ)) :
    List (Nat × ℚ) :=
  parts.map fun p => (p.1, min p.2 (getInfo info p.1).maxFraction)

/-- Embeds `_optimize_throughput`.  `none` models the
`ZeroDivisionError` raised by `flops / total_flops` when the topology
has nodes but zero total FLOPS (with no nodes the division never
runs). -/
def optimizeThroughput (info : List (Nat × Info)) : Option (List (Nat × ℚ)) :=
  let total := (info.map (·.2.flops)).sum
  if info ≠ [] ∧ total = 0 then none
  else
    let parts := initProportional info total
    let un := totalLayers - (parts.map (·.2)).sum
    (redistribute info redistFuel (parts, un)).map fun st => clampToMax info st.1

/-- Embeds `max(device_info.items(), key=lambda x: x[1]['flops'])`:
Python `max` returns the first maximal item. -/
def firstMaxByFlops : List (Nat × Info) → Option (Nat × Info)
  | [] => none
  | p :: rest =>
    some (rest.foldl (fun best q => if q.2.flops > best.2.flops then q else best) p)

/-- The dict `partitions = {node_id: 0.0 for node_id in device_info}`. -/
def initZero (info : List (Nat × Info)) : List (Nat × ℚ) :=
  info.map fun p => (p.1, 0)

/-- Embeds `sorted(remaining, key=lambda x: x[1]['flops'], reverse=True)`;
insertion sort with this relation is stable, matching Python's stable
descending sort. -/
def sortByFlopsDesc (l : List (Nat × Info)) : List (Nat × Info) :=
  l.insertionSort fun a b => b.2.flops ≤ a.2.flops

/-- Fill loop of `_optimize_latency`: remaining devices in descending
FLOPS order each take `min(max_fraction, unassigned)`, breaking once
the remainder is at most `1e-6`. -/
def latencyFill : List (Nat × Info) → List (Nat × ℚ) → ℚ → List (Nat × ℚ) × ℚ
  | [], parts, un => (parts, un)
  | (id, i) :: rest, parts, un =>
    let a := min i.maxFraction un
    let parts' := setPart parts id a
    let un' := un - a
    if un' ≤ eps then (parts', un') else latencyFill rest parts' un'

/-- Embeds `_optimize_latency`.  `none` models the `ValueError` raised
by `max` on an empty device collection. -/
def optimizeLatency (info : List (Nat × Info)) : Option (List (Nat × ℚ)) :=
  match firstMaxByFlops info with
  | none => none
  | some fastest =>
    let assigned := min totalLayers fastest.2.maxFraction
    let parts := setPart (initZero info) fastest.1 assigned
    let un := totalLayers - assigned
    if un > eps then
      let remaining := sortByFlopsDesc (info.filter fun p => p.1 ≠ fastest.1)
      some (latencyFill remaining parts un).1
    else some parts

/-- All insertions of `x` into a list, used to enumerate permutations. -/
def insertionsAt (x : Nat) : List Nat → List (List Nat)
  | [] => [[x]]
  | y :: ys => (x :: y :: ys) :: (insertionsAt x ys).map (y :: ·)

/-- Enumerates every permutation of `ids`.  The source iterates
`itertools.permutations(device_ids)`; the enumeration order differs
but the collection of enumerated orderings is the same, and no theorem
below depends on the tie-breaking order of the minimum search. -/
def allPerms : List Nat → List (List Nat)
  | [] => [[]]
  | x :: xs => ((allPerms xs).map (insertionsAt x)).flatten

/-- Latency of a candidate ordering in `_find_min_latency_order`:
the source walks `perm[i] → perm[i+1]` (the wrap-around edge is NOT
inspected), breaking with `has_high_latency` at the first edge whose
latency exceeds 50; `none` embeds that rejection. -/
def pathLatency? (lat : Nat → Nat → ℚ) : List Nat → Option ℚ
  | a :: b :: rest =>
    if lat a b > 50 then none
    else (pathLatency? lat (b :: rest)).map (lat a b + ·)
  | _ => some 0

/-- One step of the minimum search over permutations (`total_latency <
min_total_latency` keeps the first minimum found). -/
def minStep (lat : Nat → Nat → ℚ) (best : Option (List Nat × ℚ))
    (perm : List Nat) : Option (List Nat × ℚ) :=
  match pathLatency? lat perm with
  | none => best
  | some t =>
    match best with
    | none => some (perm, t)
    | some (b, m) => if t < m then some (perm, t) else some (b, m)

/-- Embeds `_find_min_latency_order`: the admissible ordering (no
consecutive path edge above 50) of least path latency, falling back to
the insertion order when every ordering is rejected. -/
def findMinLatencyOrder (ids : List Nat) (lat : Nat → Nat → ℚ) : List Nat :=
  match (allPerms ids).foldl (minStep lat) none with
  | some (b, _) => b
  | none => ids

/-- The `partitions_ordered` rebuild in `_optimize_balanced`. -/
def reorderBy (order : List Nat) (parts : List (Nat × ℚ)) : List (Nat × ℚ) :=
  order.map fun id => (id, getPart parts id)

/-- Embeds `_optimize_balanced`.  `none` models the
`ZeroDivisionError` of `flops / total_flops` (nodes present, zero total
FLOPS) or of `total_layers / total_assigned_fraction` (zero total
assigned fraction, including the empty topology), and the propagated
failure of the redistribution loop.  `float('inf')` entries of
`scaling_factors` are those filtered out of the `min`, which is why the
fold starts from `total_layers / ta` exactly as the source's
`min(total_layers / ta, min(scaling_factors))`. -/
def optimizeBalanced (info : List (Nat × Info)) (lat : Nat → Nat → ℚ) :
    Option (List (Nat × ℚ)) :=
  let total := (info.map (·.2.flops)).sum
  if info ≠ [] ∧ total = 0 then none
  else
    let parts0 := initProportional info total
    let order := findMinLatencyOrder (info.map (·.1)) lat
    let parts1 := reorderBy order parts0
    let ta := (parts1.map (·.2)).sum
    if ta = 0 then none
    else
      let factors := (parts1.filter fun p => p.2 > 0).map
        fun p => (getInfo info p.1).maxFraction / p.2
      let scaling := factors.foldl min (totalLayers / ta)
      let parts2 := parts1.map fun p =>
        (p.1, min (p.2 * scaling) (getInfo info p.1).maxFraction)
      let ta2 := (parts2.map (·.2)).sum
      let un := totalLayers - ta2
      if un > eps then
        (redistribute info redistFuel (parts2, un)).map fun st =>
          clampToMax info st.1
      else some (clampToMax info parts2)

/-- Embeds `sorted(partitions.keys())` followed by reading the dict:
sorting the pairs by key is the same since node ids are unique. -/
def sortByKey (parts : List (Nat × ℚ)) : List (Nat × ℚ) :=
  parts.insertionSort fun a b => a.1 ≤ b.1

/-- Final assembly loop of `partition`: emits
`Partition(node_id, round(start, 5), round(end, 5))` and carries the
UNROUNDED end as the next start. -/
def assemble : List (Nat × ℚ) → ℚ → List Partition
  | [], _ => []
  | (id, f) :: rest, s => ⟨id, round5 s, round5 (s + f)⟩ :: assemble rest (s + f)

/-- The three modes of `AdvancedStrategy`. -/
inductive Mode
  | throughput
  | latency
  | balanced
deriving DecidableEq

/-- Embeds `AdvancedStrategy.partition(topology, model_memory_requirement)`.
`none` models an uncaught exception of the selected optimizer. -/
def partition (mode : Mode) (topo : Topology) (M : Option ℚ) :
    Option (List Partition) :=
  let info := mkDeviceInfo topo.nodes M
  let res :=
    match mode with
    | .throughput => optimizeThroughput info
    | .latency => optimizeLatency info
    | .balanced => optimizeBalanced info topo.latency
  res.map fun parts => assemble (sortByKey parts) 0

end AdvancedStrategy

namespace AdvancedPartitioningStrategy

/-- Weights of `AdvancedPartitioningStrategy.__init__` (defaults 0.4,
0.3, 0.3). -/
structure Weights where
  latency_weight : ℚ
  memory_weight : ℚ
  flops_weight : ℚ

/-- Constant `max_memory = 1024**4` of `_calculate_node_score`. -/
def maxMemory : ℚ := 1024 * 1024 * 1024 * 1024

/-- Constant `max_flops = 1e15` of `_calculate_node_score`. -/
def maxFlops : ℚ := 1000000000000000

/-- Embeds `next(node for node, caps in topology.all_nodes() if caps ==
capabilities)`: the id of the FIRST node whose capabilities equal the
given record; `none` models the `StopIteration` raised when no node
matches. -/
def findNodeIdByCaps (topo : Topology) (caps : DeviceCapabilities) : Option Nat :=
  (topo.nodes.find? fun p => p.2 == caps).map (·.1)

/-- The `other_nodes` list of `_calculate_node_score`. -/
def otherNodeIds (topo : Topology) (nodeId : Nat) : List Nat :=
  (topo.nodes.map Prod.fst).filter (· ≠ nodeId)

/-- The `avg_latency` expression of `_calculate_node_score` (only read
when `other_nodes` is nonempty). -/
def avgLatency (topo : Topology) (nodeId : Nat) : ℚ :=
  ((otherNodeIds topo nodeId).map (topo.latency nodeId)).sum
    / (otherNodeIds topo nodeId).length

/-- The `normalized_latency` term of `_calculate_node_score`:
`1 - (avg_latency / 1.0)` when other nodes exist (NO clamping in the
source), `1.0` when the node is alone. -/
def normalizedLatency (topo : Topology) (caps : DeviceCapabilities) : Option ℚ :=
  (findNodeIdByCaps topo caps).map fun nodeId =>
    if otherNodeIds topo nodeId ≠ [] then 1 - avgLatency topo nodeId / 1 else 1

/-- Embeds `_calculate_node_score`. -/
def calculateNodeScore (w : Weights) (caps : DeviceCapabilities)
    (topo : Topology) : Option ℚ :=
  (normalizedLatency topo caps).map fun nl =>
    w.memory_weight * (caps.memory / maxMemory) +
    w.flops_weight * ((caps.flops.fp32 + caps.flops.fp16 + caps.flops.int8)
      / (3 * maxFlops)) +
    w.latency_weight * nl

/-- Follows the spec's words (4.F.1): `norm_lat = 1 - (avg_lat / 1.0)`
"(clamp to [0,1])", `avg_lat` 0 if alone.  Stated separately from the
source-derived `normalizedLatency` so the two can be compared. -/
def specNormalizedLatency (topo : Topology) (nodeId : Nat) : ℚ :=
  max 0 (min 1 (1 -
    (if otherNodeIds topo nodeId ≠ [] then avgLatency topo nodeId else 0) / 1))

end AdvancedPartitioningStrategy

/-- Follows the spec's words: the directed edges traversed by a cyclic
ordering (glossary "Ring latency"), wrap-around edge included.  Stated
separately from the source-derived `AdvancedStrategy.pathLatency?` so
the two can be compared. -/
def ringEdges : List Nat → List (Nat × Nat)
  | [] => []
  | x :: xs => (x :: xs).zip (xs ++ [x])

/-- Follows the spec's words: a cyclic ordering is admissible when NO
consecutive edge (wrap-around included) has latency above 50. -/
def RingAdmissible (lat : Nat → Nat → ℚ) (l : List Nat) : Prop :=
  ∀ e ∈ ringEdges l, lat e.1 e.2 ≤ 50

instance (lat : Nat → Nat → ℚ) (l : List Nat) : Decidable (RingAdmissible lat l) :=
  List.decidableBAll _ _

namespace UDPDiscovery

/-- JSON values as produced by `json.JSONDecoder.decode`. -/
inductive JsonValue where
  | null
  | bool (b : Bool)
  | num (q : ℚ)
  | str (s : String)
  | arr (elems : List JsonValue)
  | obj (fields : List (String × JsonValue))

mutual

/-- Structural equality of decoded JSON values (Python `==` between
objects returned by `json` decoding). -/
def JsonValue.beq : JsonValue → JsonValue → Bool
  | .null, .null => true
  | .bool a, .bool b => a == b
  | .num a, .num b => a == b
  | .str a, .str b => a == b
  | .arr as, .arr bs => JsonValue.beqList as bs
  | .obj as, .obj bs => JsonValue.beqFields as bs
  | _, _ => false

def JsonValue.beqList : List JsonValue → List JsonValue → Bool
  | [], [] => true
  | a :: as, b :: bs => JsonValue.beq a b && JsonValue.beqList as bs
  | _, _ => false

def JsonValue.beqFields :
    List (String × JsonValue) → List (String × JsonValue) → Bool
  | [], [] => true
  | a :: as, b :: bs =>
    a.1 == b.1 && JsonValue.beq a.2 b.2 && JsonValue.beqFields as bs
  | _, _ => false

end

instance : BEq JsonValue := ⟨JsonValue.beq⟩

/-- Python exceptions that `on_listen_message` can raise past its
`try` block (which only catches `json.JSONDecodeError`). -/
inductive PyErr where
  | keyError (k : String)
  | typeError
deriving DecidableEq

/-- Subscripting `message[k]`: a `KeyError` on an object without the
key, a `TypeError` on any non-object JSON value. -/
def JsonValue.getItem : JsonValue → String → Except PyErr JsonValue
  | .obj fields, k =>
    match fields.lookup k with
    | some v => .ok v
    | none => .error (.keyError k)
  | _, _ => .error .typeError

/-- The `dict.get` read used for `message.get("public_ip")`. -/
def JsonValue.getOpt : JsonValue → String → Option JsonValue
  | .obj fields, k => fields.lookup k
  | _, _ => none

/-- Python `==` between a decoded JSON value and a `str` (values of a
different runtime type compare unequal). -/
def JsonValue.eqStr : JsonValue → String → Bool
  | .str t, s => t == s
  | _, _ => false

/-- Rendering used by the f-string `f"{peer_host}:{peer_port}"`; only
the scalar values carried by well-formed announcements are rendered
faithfully (string formatting itself is Python-runtime behaviour
outside the repository). -/
def JsonValue.render : JsonValue → String
  | .str s => s
  | .num q => toString q
  | .bool b => if b then "True" else "False"
  | .null => "None"
  | .arr _ => "<list>"
  | .obj _ => "<dict>"

/-- Modelled from the spec: `device_capabilities.py` is not under the
provided sources.  "DeviceCapabilities … Serializable to/from a
key-value mapping"; `DeviceCapabilities(**message["device_capabilities"])`
succeeds exactly when the mapping carries the four fields with their
expected shapes. -/
def decodeCapabilities : JsonValue → Except PyErr DeviceCapabilities
  | .obj fields =>
    match fields.lookup "model", fields.lookup "chip",
        fields.lookup "memory", fields.lookup "flops" with
    | some (.str m), some (.str c), some (.num mem), some (.obj fl) =>
      match fl.lookup "fp32", fl.lookup "fp16", fl.lookup "int8" with
      | some (.num a), some (.num b), some (.num d) =>
        .ok ⟨m, c, mem, ⟨a, b, d⟩⟩
      | _, _, _ => .error .typeError
    | _, _, _, _ => .error .typeError
  | _ => .error .typeError

/-- A peer handle as built by the injected `create_peer_handle`
factory: it reports back the id, `"host:port"` address, capabilities
and WAN flag it was built from (the spec's PeerHandle contract). -/
structure PeerHandle where
  pid : JsonValue
  addr : String
  caps : DeviceCapabilities
  isWan : Bool

/-- The discovery-engine state that `on_listen_message` reads and
writes: the local `node_id` and the `known_peers` table mapping peer id
to `(handle, first_seen, last_seen)`. -/
structure DiscoveryState where
  nodeId : String
  knownPeers : List (JsonValue × PeerHandle × ℚ × ℚ)

/-- Table lookup `peer_id in self.known_peers` /
`self.known_peers[peer_id]`. -/
def lookupPeer (tbl : List (JsonValue × PeerHandle × ℚ × ℚ)) (k : JsonValue) :
    Option (PeerHandle × ℚ × ℚ) :=
  match tbl with
  | [] => none
  | p :: rest => if p.1 == k then some p.2 else lookupPeer rest k

/-- Dict assignment `self.known_peers[peer_id] = v`: replaces in place
when the key exists, appends otherwise. -/
def setPeer (tbl : List (JsonValue × PeerHandle × ℚ × ℚ)) (k : JsonValue)
    (v : PeerHandle × ℚ × ℚ) : List (JsonValue × PeerHandle × ℚ × ℚ) :=
  match tbl with
  | [] => [(k, v)]
  | p :: rest => if p.1 == k then (k, v) :: rest else p :: setPeer rest k v

/-- Dict deletion `del self.known_peers[peer_id]`. -/
def delPeer (tbl : List (JsonValue × PeerHandle × ℚ × ℚ)) (k : JsonValue) :
    List (JsonValue × PeerHandle × ℚ × ℚ) :=
  match tbl with
  | [] => []
  | p :: rest => if p.1 == k then rest else p :: delPeer rest k

/-- Outcome of the string-level processing of a received datagram
before `on_listen_message` inspects the decoded value (byte and JSON
decoding are Python-runtime behaviour outside the repository).
`empty` is falsy `data`; `invalidText` is a payload whose stripped text
is empty or does not start with `{` or `[`; `undecodable` raises
`json.JSONDecodeError` (caught and dropped); `decoded` carries the
decoded JSON value. -/
inductive RecvData where
  | empty
  | invalidText (s : String)
  | undecodable (s : String)
  | decoded (v : JsonValue)

/-- The insert-or-refresh tail of the receive handler, after the peer
address has been resolved.  `health` gives the result of awaiting
`health_check()` on a handle; `now` is `time.time()`. -/
def handleResolved (st : DiscoveryState) (health : PeerHandle → Bool)
    (now : ℚ) (peerId : JsonValue) (host : String) (port : JsonValue)
    (caps : DeviceCapabilities) (isWan : Bool) : DiscoveryState :=
  let addr := host ++ ":" ++ port.render
  match lookupPeer st.knownPeers peerId with
  | none =>
    let nh : PeerHandle := ⟨peerId, addr, caps, isWan⟩
    if health nh then
      { st with knownPeers := setPeer st.knownPeers peerId (nh, now, now) }
    else st
  | some (h, t1, _) =>
    if h.addr ≠ addr then
      let nh : PeerHandle := ⟨peerId, addr, caps, isWan⟩
      if health nh then
        { st with knownPeers := setPeer st.knownPeers peerId (nh, now, now) }
      else st
    else
      if health h then
        { st with knownPeers := setPeer st.knownPeers peerId (h, t1, now) }
      else { st with knownPeers := delPeer st.knownPeers peerId }

/-- Embeds `UDPDiscovery.on_listen_message`.  `srcIp` is `addr[0]` of
the datagram; an `error` outcome is an exception escaping the handler
(its `try` only catches `json.JSONDecodeError`). -/
def onListenMessage (st : DiscoveryState) (health : PeerHandle → Bool)
    (now : ℚ) (srcIp : String) (d : RecvData) : Except PyErr DiscoveryState :=
  match d with
  | .empty => .ok st
  | .invalidText _ => .ok st
  | .undecodable _ => .ok st
  | .decoded msg => do
    let t ← msg.getItem "type"
    if t.eqStr "discovery" then do
      let nid ← msg.getItem "node_id"
      if nid.eqStr st.nodeId then
        .ok st
      else do
        let grpcPort ← msg.getItem "grpc_port"
        let capsJson ← msg.getItem "device_capabilities"
        let caps ← decodeCapabilities capsJson
        let isWan :=
          match msg.getOpt "public_ip" with
          | some v => !(v == JsonValue.null)
          | none => false
        if isWan then do
          let pip ← msg.getItem "public_ip"
          let pport ← msg.getItem "public_port"
          .ok (handleResolved st health now nid pip.render pport caps true)
        else
          .ok (handleResolved st health now nid srcIp grpcPort caps false)
    else
      .ok st

/-- Sequential processing of a list of datagrams (each with its own
receipt time and source address) by the receive handler. -/
def processAll (health : PeerHandle → Bool) :
    DiscoveryState → List (ℚ × String × RecvData) → Except PyErr DiscoveryState :=
  fun st ds => ds.foldlM (fun s d => onListenMessage s health d.1 d.2.1 d.2.2) st

end UDPDiscovery

/-! Concrete instances used by the counterexamples and witnesses. -/

/-- The topology with no nodes. -/
def emptyTopo : Topology := ⟨[], fun _ _ => 0⟩

/-- One node with 4000 memory, fp32 FLOPS 10. -/
def topoMemCap : Topology :=
  ⟨[(0, ⟨"Device_A", "Chip_A", 4000, ⟨10, 20, 40⟩⟩)], fun _ _ => 0⟩

/-- One node whose memory is 99995 so that, with requirement 100000,
the single partition ends at 0.99995. -/
def topoNear1 : Topology :=
  ⟨[(0, ⟨"Device_A", "Chip_A", 99995, ⟨10, 0, 0⟩⟩)], fun _ _ => 0⟩

/-- Two nodes, the second strictly fastest, equal memory. -/
def topoTwo : Topology :=
  ⟨[(0, ⟨"Device_A", "Chip_A", 8000, ⟨10, 0, 0⟩⟩),
    (1, ⟨"Device_B", "Chip_B", 8000, ⟨30, 0, 0⟩⟩)], fun _ _ => 0⟩

/-- Latencies making `0 → 1 → 2` the only cheap path while every
3-cycle over `{0, 1, 2}` contains an edge of latency 100. -/
def latTriangle : Nat → Nat → ℚ := fun a b =>
  if a = 0 ∧ b = 1 then 1 else if a = 1 ∧ b = 2 then 1 else 100

/-- Two nodes with distinct capabilities and directed latency 2 from
node 0 to node 1 (an average latency above 1 second). -/
def topoSlowLink : Topology :=
  ⟨[(0, ⟨"Device_A", "Chip_A", 8000, ⟨10, 0, 0⟩⟩),
    (1, ⟨"Device_B", "Chip_B", 4000, ⟨20, 0, 0⟩⟩)],
    fun a b => if a = 0 ∧ b = 1 then 2 else 0⟩

namespace AdvancedStrategy

/-! Basic facts about `round5`. -/

theorem round5_zero : round5 0 = 0 := by
  norm_num [round5]

theorem round5_one : round5 1 = 1 := by
  norm_num [round5, round_eq]

theorem round5_add_one (x : ℚ) : round5 (x + 1) = round5 x + 1 := by
  unfold round5
  rw [add_mul, one_mul, show (100000 : ℚ) = ((100000 : ℤ) : ℚ) by norm_num,
    round_add_int]
  push_cast
  ring

theorem abs_round5_sub (x : ℚ) : |round5 x - x| ≤ 1 / 200000 := by
  unfold round5
  have h := abs_sub_round (x * 100000)
  have h2 : |(round (x * 100000) : ℚ) - x * 100000| ≤ 1 / 2 := by
    rw [abs_sub_comm] at h
    exact h
  calc |(round (x * 100000) : ℚ) / 100000 - x|
      = |(round (x * 100000) : ℚ) - x * 100000| / 100000 := by
        rw [← abs_of_pos (show (0:ℚ) < 100000 by norm_num), ← abs_div]
        congr 1
        field_simp
        ring
    _ ≤ (1 / 2) / 100000 := by gcongr
    _ = 1 / 200000 := by norm_num

/-! Facts about association lists. -/

theorem alookup_eq_of_mem {β : Type} {parts : List (Nat × β)} {id : Nat}
    {v : β} (hnd : (parts.map Prod.fst).Nodup) (h : (id, v) ∈ parts) :
    alookup parts id = some v := by
  induction parts with
  | nil => cases h
  | cons p rest ih =>
    rw [List.map_cons, List.nodup_cons] at hnd
    rcases List.mem_cons.mp h with h1 | h1
    · cases h1
      simp [alookup]
    · have hne : p.1 ≠ id := by
        intro he
        exact hnd.1 (he ▸ List.mem_map.mpr ⟨(id, v), h1, rfl⟩)
      simp only [alookup, if_neg hne]
      exact ih hnd.2 h1

theorem mem_of_alookup {β : Type} {parts : List (Nat × β)} {id : Nat} {v : β}
    (h : alookup parts id = some v) : (id, v) ∈ parts := by
  induction parts with
  | nil => simp [alookup] at h
  | cons p rest ih =>
    by_cases he : p.1 = id
    · simp only [alookup, if_pos he] at h
      cases h
      exact List.mem_cons.mpr (Or.inl (by rw [← he]))
    · simp only [alookup, if_neg he] at h
      exact List.mem_cons.mpr (Or.inr (ih h))

theorem getPart_eq_of_mem {parts : List (Nat × ℚ)} {id : Nat} {v : ℚ}
    (hnd : (parts.map Prod.fst).Nodup) (h : (id, v) ∈ parts) :
    getPart parts id = v := by
  simp [getPart, alookup_eq_of_mem hnd h]

theorem getInfo_eq_of_mem {info : List (Nat × Info)} {id : Nat} {i : Info}
    (hnd : (info.map Prod.fst).Nodup) (h : (id, i) ∈ info) :
    getInfo info id = i := by
  simp [getInfo, alookup_eq_of_mem hnd h]

theorem setPart_map_fst (parts : List (Nat × ℚ)) (id : Nat) (v : ℚ) :
    (setPart parts id v).map Prod.fst = parts.map Prod.fst := by
  induction parts with
  | nil => rfl
  | cons p rest ih =>
    simp only [setPart, List.map_cons] at ih ⊢
    by_cases he : p.1 = id
    · rw [if_pos he]
      simpa using ih
    · rw [if_neg he]
      simpa using ih

theorem mem_setPart {parts : List (Nat × ℚ)} {id k : Nat} {v w : ℚ}
    (h : (k, w) ∈ setPart parts id v) :
    (k = id ∧ w = v) ∨ (k, w) ∈ parts := by
  rcases List.mem_map.mp h with ⟨p, hp, he⟩
  by_cases hk : p.1 = id
  · rw [if_pos hk] at he
    cases he
    exact Or.inl ⟨hk.symm ▸ rfl, rfl⟩
  · rw [if_neg hk] at he
    exact Or.inr (he ▸ hp)

theorem alookup_self_map {β : Type} (parts : List (Nat × β)) (d : β)
    (hnd : (parts.map Prod.fst).Nodup) :
    (parts.map Prod.fst).map (fun id => (id, (alookup parts id).getD d)) = parts := by
  induction parts with
  | nil => rfl
  | cons p rest ih =>
    rw [List.map_cons, List.nodup_cons] at hnd
    rw [List.map_cons, List.map_cons]
    congr 1
    · simp [alookup]
    · have : ∀ id ∈ rest.map Prod.fst,
          (id, (alookup (p :: rest) id).getD d) = (id, (alookup rest id).getD d) := by
        intro id hid
        have hne : p.1 ≠ id := fun he => hnd.1 (he ▸ hid)
        simp [alookup, if_neg hne]
      rw [List.map_congr_left this]
      exact ih hnd.2

/-! Facts about the final assembly loop. -/

theorem assemble_map_nodeId (parts : List (Nat × ℚ)) (s : ℚ) :
    (assemble parts s).map Partition.nodeId = parts.map Prod.fst := by
  induction parts generalizing s with
  | nil => rfl
  | cons p rest ih =>
    cases p
    simp [assemble, ih]

theorem assemble_head_start {parts : List (Nat × ℚ)} {s : ℚ} {p : Partition}
    (h : (assemble parts s).head? = some p) : p.start = round5 s := by
  cases parts with
  | nil => simp [assemble] at h
  | cons q rest =>
    cases q
    simp only [assemble, List.head?_cons, Option.some.injEq] at h
    rw [← h]

theorem assemble_chain' (parts : List (Nat × ℚ)) (s : ℚ) :
    List.Chain' (fun p q => p.stop = q.start) (assemble parts s) := by
  induction parts generalizing s with
  | nil => simp [assemble]
  | cons p rest ih =>
    cases p with
    | mk id f =>
      rw [assemble]
      apply List.chain'_cons'.mpr
      refine ⟨?_, ih (s + f)⟩
      intro q hq
      rw [assemble_head_start hq]

theorem assemble_width_sum (parts : List (Nat × ℚ)) (s : ℚ) :
    ((assemble parts s).map Partition.width).sum
      = round5 (s + (parts.map Prod.snd).sum) - round5 s := by
  induction parts generalizing s with
  | nil => simp [assemble]
  | cons p rest ih =>
    cases p with
    | mk id f =>
      simp only [assemble, List.map_cons, List.sum_cons, Partition.width, ih (s + f),
        List.map_cons, List.sum_cons]
      ring_nf

theorem assemble_getLast_stop : ∀ (parts : List (Nat × ℚ)) (s : ℚ) (p : Partition),
    (assemble parts s).getLast? = some p →
    p.stop = round5 (s + (parts.map Prod.snd).sum)
  | [], s, p, h => by simp [assemble] at h
  | [(id, f)], s, p, h => by
    simp only [assemble, List.getLast?_singleton, Option.some.injEq] at h
    simp [← h]
  | (id, f) :: (id2, f2) :: rest, s, p, h => by
    rw [show assemble ((id, f) :: (id2, f2) :: rest) s
        = ⟨id, round5 s, round5 (s + f)⟩ ::
          (⟨id2, round5 (s + f), round5 (s + f + f2)⟩ :: assemble rest (s + f + f2))
      from rfl, List.getLast?_cons_cons] at h
    have := assemble_getLast_stop ((id2, f2) :: rest) (s + f) p (by
      rw [show assemble ((id2, f2) :: rest) (s + f)
          = ⟨id2, round5 (s + f), round5 (s + f + f2)⟩ :: assemble rest (s + f + f2)
        from rfl]
      exact h)
    rw [this]
    congr 1
    simp only [List.map_cons, List.sum_cons]
    ring

theorem assemble_mem (parts : List (Nat × ℚ)) (s : ℚ) :
    ∀ p ∈ assemble parts s, ∃ t f, (p.nodeId, f) ∈ parts ∧
      p.start = round5 t ∧ p.stop = round5 (t + f) := by
  induction parts generalizing s with
  | nil => simp [assemble]
  | cons q rest ih =>
    obtain ⟨id, f⟩ := q
    intro p hp
    rcases List.mem_cons.mp hp with h1 | h1
    · subst h1
      exact ⟨s, f, List.mem_cons_self _ _, rfl, rfl⟩
    · rcases ih (s + f) p h1 with ⟨t, g, hm, h2, h3⟩
      exact ⟨t, g, List.mem_cons_of_mem _ hm, h2, h3⟩

/-! Facts about the sorting and summation steps. -/

theorem sortByKey_perm (parts : List (Nat × ℚ)) : (sortByKey parts).Perm parts :=
  List.perm_insertionSort _ parts

theorem sum_map_div (l : List (Nat × Info)) (c : ℚ) :
    (l.map fun p => p.2.flops / c).sum = (l.map fun p => p.2.flops).sum / c := by
  induction l with
  | nil => simp
  | cons p rest ih => simp [ih, add_div]

theorem foldl_min_of_le {l : List ℚ} {a : ℚ} (h : ∀ x ∈ l, a ≤ x) :
    l.foldl min a = a := by
  induction l generalizing a with
  | nil => rfl
  | cons x xs ih =>
    rw [List.foldl_cons, min_eq_left (h x (List.mem_cons_self _ _))]
    exact ih fun y hy => h y (List.mem_cons_of_mem _ hy)

theorem sum_indicator {info : List (Nat × Info)} {m : Nat}
    (hnd : (info.map Prod.fst).Nodup) (hm : m ∈ info.map Prod.fst) :
    ((info.map fun p => if p.1 = m then ((1 : ℚ)) else 0).sum) = 1 := by
  induction info with
  | nil => cases hm
  | cons p rest ih =>
    rw [List.map_cons, List.nodup_cons] at hnd
    rw [List.map_cons, List.sum_cons]
    by_cases he : p.1 = m
    · rw [if_pos he]
      have : ∀ q ∈ rest, (if q.1 = m then ((1:ℚ)) else 0) = 0 := by
        intro q hq
        rw [if_neg]
        intro hqm
        exact hnd.1 (he ▸ hqm ▸ List.mem_map.mpr ⟨q, hq, rfl⟩)
      rw [List.map_congr_left this]
      simp
    · rw [if_neg he]
      have hm' : m ∈ rest.map Prod.fst := by
        rcases List.mem_cons.mp hm with h1 | h1
        · exact absurd h1.symm he
        · exact h1
      rw [ih hnd.2 hm']
      ring

theorem setPart_entry {info : List (Nat × Info)} {m k : Nat} {v w : ℚ}
    (h : (k, w) ∈ setPart (initZero info) m v) :
    w = if k = m then v else 0 := by
  rcases List.mem_map.mp h with ⟨q, hq, he⟩
  rcases List.mem_map.mp hq with ⟨p, _, he2⟩
  by_cases hk : q.1 = m
  · rw [if_pos hk] at he
    cases he
    rw [if_pos hk]
  · rw [if_neg hk] at he
    cases he
    rw [if_neg hk]
    cases he2
    rfl

theorem setPart_initZero_eq (info : List (Nat × Info)) (m : Nat) (v : ℚ) :
    setPart (initZero info) m v
      = info.map fun p => (p.1, if p.1 = m then v else 0) := by
  rw [initZero, setPart, List.map_map]
  apply List.map_congr_left
  intro p _
  by_cases he : p.1 = m
  · simp [he]
  · simp [he]

theorem setPart_initZero_sum {info : List (Nat × Info)} {m : Nat}
    (hnd : (info.map Prod.fst).Nodup) (hm : m ∈ info.map Prod.fst) :
    ((setPart (initZero info) m 1).map Prod.snd).sum = 1 := by
  rw [setPart_initZero_eq, List.map_map]
  have : (Prod.snd ∘ fun p : Nat × Info => (p.1, if p.1 = m then (1:ℚ) else 0))
      = fun p : Nat × Info => if p.1 = m then (1:ℚ) else 0 := rfl
  rw [this]
  exact sum_indicator hnd hm

/-! Facts about the permutation enumeration and the minimum search of
`_find_min_latency_order`. -/

theorem mem_insertionsAt_perm {x : Nat} : ∀ {l p : List Nat},
    p ∈ insertionsAt x l → p.Perm (x :: l) := by
  intro l
  induction l with
  | nil =>
    intro p hp
    simp only [insertionsAt, List.mem_singleton] at hp
    subst hp
    exact List.Perm.refl _
  | cons y ys ih =>
    intro p hp
    rcases List.mem_cons.mp hp with h1 | h1
    · subst h1
      exact List.Perm.refl _
    · rcases List.mem_map.mp h1 with ⟨q, hq, he⟩
      subst he
      exact (List.Perm.cons y (ih hq)).trans (List.Perm.swap x y ys)

theorem mem_allPerms_perm : ∀ {l p : List Nat}, p ∈ allPerms l → p.Perm l := by
  intro l
  induction l with
  | nil =>
    intro p hp
    simp only [allPerms, List.mem_singleton] at hp
    subst hp
    exact List.Perm.refl _
  | cons x xs ih =>
    intro p hp
    simp only [allPerms, List.mem_flatten] at hp
    rcases hp with ⟨L, hL, hpL⟩
    rcases List.mem_map.mp hL with ⟨q, hq, he⟩
    subst he
    exact (mem_insertionsAt_perm hpL).trans (List.Perm.cons x (ih hq))

theorem append_cons_mem_insertionsAt (x : Nat) :
    ∀ (a b : List Nat), (a ++ x :: b) ∈ insertionsAt x (a ++ b) := by
  intro a
  induction a with
  | nil =>
    intro b
    cases b with
    | nil => simp [insertionsAt]
    | cons y ys => simp only [List.nil_append, insertionsAt]; exact List.mem_cons_self _ _
  | cons y ys ih =>
    intro b
    simp only [List.cons_append, insertionsAt]
    exact List.mem_cons.mpr (Or.inr (List.mem_map.mpr ⟨ys ++ x :: b, ih b, rfl⟩))

theorem perm_mem_allPerms : ∀ {l p : List Nat}, p.Perm l → p ∈ allPerms l := by
  intro l
  induction l with
  | nil =>
    intro p hp
    rw [List.perm_nil.mp hp]
    simp [allPerms]
  | cons x xs ih =>
    intro p hp
    have hx : x ∈ p := hp.symm.subset (List.mem_cons_self _ _)
    rcases List.append_of_mem hx with ⟨a, b, he⟩
    subst he
    have hab : (a ++ b).Perm xs := by
      have := hp.symm
      exact (List.perm_middle.symm.trans hp).cons_inv
    simp only [allPerms, List.mem_flatten]
    exact ⟨insertionsAt x (a ++ b),
      List.mem_map.mpr ⟨a ++ b, ih hab, rfl⟩,
      append_cons_mem_insertionsAt x a b⟩

theorem minStep_of_none {lat : Nat → Nat → ℚ} {x : List Nat}
    (acc : Option (List Nat × ℚ)) (h : pathLatency? lat x = none) :
    minStep lat acc x = acc := by
  rw [minStep, h]

theorem minStep_of_some_none {lat : Nat → Nat → ℚ} {x : List Nat} {u : ℚ}
    (h : pathLatency? lat x = some u) :
    minStep lat none x = some (x, u) := by
  rw [minStep, h]

theorem minStep_of_some_some {lat : Nat → Nat → ℚ} {x b : List Nat} {u m : ℚ}
    (h : pathLatency? lat x = some u) :
    minStep lat (some (b, m)) x = if u < m then some (x, u) else some (b, m) := by
  rw [minStep, h]

theorem foldl_minStep_eq_none {lat : Nat → Nat → ℚ} :
    ∀ (L : List (List Nat)) (acc : Option (List Nat × ℚ)),
    L.foldl (minStep lat) acc = none ↔
      acc = none ∧ ∀ p ∈ L, pathLatency? lat p = none := by
  intro L
  induction L with
  | nil => simp
  | cons x L ih =>
    intro acc
    rw [List.foldl_cons, ih]
    constructor
    · rintro ⟨h1, h2⟩
      cases hx : pathLatency? lat x with
      | none =>
        rw [minStep_of_none acc hx] at h1
        exact ⟨h1, fun p hp => by
          rcases List.mem_cons.mp hp with h | h
          · exact h ▸ hx
          · exact h2 p h⟩
      | some t =>
        exfalso
        cases acc with
        | none => rw [minStep_of_some_none hx] at h1; cases h1
        | some b =>
          obtain ⟨bb, mm⟩ := b
          rw [minStep_of_some_some hx] at h1
          by_cases hlt : t < mm
          · rw [if_pos hlt] at h1; cases h1
          · rw [if_neg hlt] at h1; cases h1
    · rintro ⟨h1, h2⟩
      have hx := h2 x (List.mem_cons_self _ _)
      rw [minStep_of_none acc hx]
      exact ⟨h1, fun p hp => h2 p (List.mem_cons_of_mem _ hp)⟩

theorem foldl_minStep_eq_some {lat : Nat → Nat → ℚ} :
    ∀ (L : List (List Nat)) (acc : Option (List Nat × ℚ)) (b : List Nat) (t : ℚ),
    (∀ b0 t0, acc = some (b0, t0) → pathLatency? lat b0 = some t0) →
    L.foldl (minStep lat) acc = some (b, t) →
    pathLatency? lat b = some t ∧
    (b ∈ L ∨ acc = some (b, t)) ∧
    (∀ p ∈ L, ∀ u, pathLatency? lat p = some u → t ≤ u) ∧
    (∀ b0 t0, acc = some (b0, t0) → t ≤ t0) := by
  intro L
  induction L with
  | nil =>
    intro acc b t hinv h
    simp only [List.foldl_nil] at h
    subst h
    refine ⟨hinv b t rfl, Or.inr rfl, by simp, ?_⟩
    intro b0 t0 h0
    simp only [Option.some.injEq, Prod.mk.injEq] at h0
    exact le_of_eq h0.2
  | cons x L ih =>
    intro acc b t hinv h
    rw [List.foldl_cons] at h
    have hinv' : ∀ b0 t0, minStep lat acc x = some (b0, t0) →
        pathLatency? lat b0 = some t0 := by
      intro b0 t0 hm
      cases hx : pathLatency? lat x with
      | none =>
        rw [minStep_of_none acc hx] at hm
        exact hinv b0 t0 hm
      | some u =>
        cases hacc : acc with
        | none =>
          rw [hacc, minStep_of_some_none hx] at hm
          simp only [Option.some.injEq, Prod.mk.injEq] at hm
          rw [← hm.1, hx, hm.2]
        | some bm =>
          obtain ⟨bb, mm⟩ := bm
          rw [hacc, minStep_of_some_some hx] at hm
          by_cases hlt : u < mm
          · rw [if_pos hlt] at hm
            simp only [Option.some.injEq, Prod.mk.injEq] at hm
            rw [← hm.1, hx, hm.2]
          · rw [if_neg hlt] at hm
            simp only [Option.some.injEq, Prod.mk.injEq] at hm
            rw [← hm.1, hinv bb mm hacc, hm.2]
    obtain ⟨h1, h2, h3, h4⟩ := ih (minStep lat acc x) b t hinv' h
    refine ⟨h1, ?_, ?_, ?_⟩
    · rcases h2 with h2 | h2
      · exact Or.inl (List.mem_cons_of_mem _ h2)
      · cases hx : pathLatency? lat x with
        | none =>
          rw [minStep_of_none acc hx] at h2
          exact Or.inr h2
        | some u =>
          cases hacc : acc with
          | none =>
            rw [hacc, minStep_of_some_none hx] at h2
            simp only [Option.some.injEq, Prod.mk.injEq] at h2
            exact Or.inl (h2.1 ▸ List.mem_cons_self _ _)
          | some bm =>
            obtain ⟨bb, mm⟩ := bm
            rw [hacc, minStep_of_some_some hx] at h2
            by_cases hlt : u < mm
            · rw [if_pos hlt] at h2
              simp only [Option.some.injEq, Prod.mk.injEq] at h2
              exact Or.inl (h2.1 ▸ List.mem_cons_self _ _)
            · rw [if_neg hlt] at h2
              exact Or.inr (hacc ▸ h2)
    · intro p hp u hu
      rcases List.mem_cons.mp hp with hpx | hpL
      · subst hpx
        cases hacc : acc with
        | none =>
          have := h4 p u (by rw [hacc, minStep_of_some_none hu])
          exact this
        | some bm =>
          obtain ⟨bb, mm⟩ := bm
          by_cases hlt : u < mm
          · exact h4 p u (by rw [hacc, minStep_of_some_some hu, if_pos hlt])
          · exact le_trans
              (h4 bb mm (by rw [hacc, minStep_of_some_some hu, if_neg hlt]))
              (not_lt.mp hlt)
      · exact h3 p hpL u hu
    · intro b0 t0 hacc
      subst hacc
      cases hx : pathLatency? lat x with
      | none => exact h4 b0 t0 (minStep_of_none _ hx)
      | some u =>
        by_cases hlt : u < t0
        · exact le_trans (h4 x u (by rw [minStep_of_some_some hx, if_pos hlt]))
            (le_of_lt hlt)
        · exact h4 b0 t0 (by rw [minStep_of_some_some hx, if_neg hlt])

theorem findMinLatencyOrder_perm (ids : List Nat) (lat : Nat → Nat → ℚ) :
    (findMinLatencyOrder ids lat).Perm ids := by
  rw [findMinLatencyOrder]
  cases hf : (allPerms ids).foldl (minStep lat) none with
  | none => exact List.Perm.refl _
  | some b =>
    obtain ⟨bb, t⟩ := b
    obtain ⟨_, h2, _, _⟩ := foldl_minStep_eq_some (allPerms ids) none bb t
      (by intro b0 t0 h; cases h) hf
    rcases h2 with h2 | h2
    · exact mem_allPerms_perm h2
    · cases h2

/-! Characterization of the three optimizers when no memory requirement
is given (every `max_fraction` is `1.0`). -/

theorem mkDeviceInfo_map_fst (nodes : List (Nat × DeviceCapabilities))
    (M : Option ℚ) : (mkDeviceInfo nodes M).map Prod.fst = nodes.map Prod.fst := by
  rw [mkDeviceInfo, List.map_map]
  rfl

theorem mkDeviceInfo_none_maxFraction {nodes : List (Nat × DeviceCapabilities)}
    {p : Nat × Info} (hp : p ∈ mkDeviceInfo nodes none) : p.2.maxFraction = 1 := by
  rcases List.mem_map.mp hp with ⟨q, _, he⟩
  rw [← he]

theorem total_flops_pos {info : List (Nat × Info)}
    (hflops : ∀ p ∈ info, 0 < p.2.flops) (hne : info ≠ []) :
    0 < (info.map (·.2.flops)).sum := by
  apply List.sum_pos
  · intro x hx
    rcases List.mem_map.mp hx with ⟨p, hp, he⟩
    exact he ▸ hflops p hp
  · simpa using hne

theorem initProportional_noCap {info : List (Nat × Info)}
    (hflops : ∀ p ∈ info, 0 < p.2.flops)
    (hmax : ∀ p ∈ info, p.2.maxFraction = 1) :
    initProportional info ((info.map (·.2.flops)).sum)
      = info.map fun p => (p.1, p.2.flops / (info.map (·.2.flops)).sum) := by
  apply List.map_congr_left
  intro p hp
  have hnn : ∀ x ∈ info.map (·.2.flops), 0 ≤ x := by
    intro x hx
    rcases List.mem_map.mp hx with ⟨q, hq, he⟩
    exact he ▸ le_of_lt (hflops q hq)
  have hle : p.2.flops ≤ (info.map (·.2.flops)).sum :=
    List.single_le_sum hnn _ (List.mem_map.mpr ⟨p, hp, rfl⟩)
  have htot : 0 < (info.map (·.2.flops)).sum :=
    lt_of_lt_of_le (hflops p hp) hle
  rw [totalLayers, mul_one, hmax p hp]
  congr 1
  exact min_eq_left ((div_le_one htot).mpr hle)

theorem initProportional_noCap_sum {info : List (Nat × Info)}
    (hflops : ∀ p ∈ info, 0 < p.2.flops)
    (hmax : ∀ p ∈ info, p.2.maxFraction = 1) (hne : info ≠ []) :
    ((initProportional info ((info.map (·.2.flops)).sum)).map Prod.snd).sum = 1 := by
  rw [initProportional_noCap hflops hmax, List.map_map]
  have : (Prod.snd ∘ fun p : Nat × Info =>
      (p.1, p.2.flops / (info.map (·.2.flops)).sum))
      = fun p : Nat × Info => p.2.flops / (info.map (·.2.flops)).sum := rfl
  rw [this, sum_map_div]
  exact div_self (ne_of_gt (total_flops_pos hflops hne))

theorem clampToMax_eq {info : List (Nat × Info)} {parts : List (Nat × ℚ)}
    (h : ∀ p ∈ parts, p.2 ≤ (getInfo info p.1).maxFraction) :
    clampToMax info parts = parts := by
  rw [clampToMax]
  have : ∀ p ∈ parts, (p.1, min p.2 (getInfo info p.1).maxFraction) = p := by
    intro p hp
    rw [min_eq_left (h p hp)]
  rw [List.map_congr_left this]
  simp

theorem optimizeThroughput_noCap {info : List (Nat × Info)}
    (hnd : (info.map Prod.fst).Nodup)
    (hflops : ∀ p ∈ info, 0 < p.2.flops)
    (hmax : ∀ p ∈ info, p.2.maxFraction = 1) (hne : info ≠ []) :
    optimizeThroughput info
      = some (info.map fun p => (p.1, p.2.flops / (info.map (·.2.flops)).sum)) := by
  have htot := total_flops_pos hflops hne
  simp only [optimizeThroughput]
  rw [if_neg (by push_neg; intro _; exact ne_of_gt htot)]
  rw [initProportional_noCap hflops hmax,
    ← initProportional_noCap hflops hmax, initProportional_noCap_sum hflops hmax hne]
  rw [show totalLayers - 1 = 0 by rw [totalLayers]; ring]
  rw [redistribute_of_not_gt info redistFuel _ 0
    (by norm_num [redistFuel]) (by norm_num [eps])]
  rw [show Option.map (fun st : List (Nat × ℚ) × ℚ => clampToMax info st.1)
      (some (initProportional info ((info.map (·.2.flops)).sum), 0))
      = some (clampToMax info (initProportional info ((info.map (·.2.flops)).sum)))
    from rfl]
  rw [initProportional_noCap hflops hmax]
  congr 1
  apply clampToMax_eq
  intro p hp
  rcases List.mem_map.mp hp with ⟨q, hq, he⟩
  have hgi : getInfo info q.1 = q.2 := getInfo_eq_of_mem hnd (by
    rw [show (q.1, q.2) = q from rfl]
    exact hq)
  rw [← he]
  simp only
  rw [hgi, hmax q hq]
  have hnn : ∀ x ∈ info.map (·.2.flops), 0 ≤ x := by
    intro x hx
    rcases List.mem_map.mp hx with ⟨r, hr, he2⟩
    exact he2 ▸ le_of_lt (hflops r hr)
  exact (div_le_one htot).mpr
    (List.single_le_sum hnn _ (List.mem_map.mpr ⟨q, hq, rfl⟩))

theorem foldl_pick_mem {α : Type} (f : α → α → α)
    (hf : ∀ a b, f a b = a ∨ f a b = b) :
    ∀ (l : List α) (acc : α), l.foldl f acc = acc ∨ l.foldl f acc ∈ l := by
  intro l
  induction l with
  | nil => intro acc; exact Or.inl rfl
  | cons x xs ih =>
    intro acc
    rw [List.foldl_cons]
    rcases ih (f acc x) with h | h
    · rw [h]
      rcases hf acc x with h2 | h2
      · exact Or.inl h2
      · rw [h2]
        exact Or.inr (List.mem_cons_self _ _)
    · exact Or.inr (List.mem_cons_of_mem _ h)

theorem firstMaxByFlops_mem {info : List (Nat × Info)} {m : Nat × Info}
    (h : firstMaxByFlops info = some m) : m ∈ info := by
  cases info with
  | nil => cases h
  | cons p rest =>
    simp only [firstMaxByFlops, Option.some.injEq] at h
    have hstep : ∀ a b : Nat × Info,
        (if b.2.flops > a.2.flops then b else a) = a ∨
        (if b.2.flops > a.2.flops then b else a) = b := by
      intro a b
      by_cases hab : b.2.flops > a.2.flops
      · exact Or.inr (if_pos hab)
      · exact Or.inl (if_neg hab)
    rcases foldl_pick_mem
      (fun (best q : Nat × Info) => if q.2.flops > best.2.flops then q else best)
      hstep rest p with h2 | h2
    · rw [h] at h2
      rw [← h2]
      exact List.mem_cons_self _ _
    · rw [h] at h2
      exact List.mem_cons_of_mem _ h2

theorem optimizeLatency_noCap {info : List (Nat × Info)}
    (hmax : ∀ p ∈ info, p.2.maxFraction = 1) (hne : info ≠ []) :
    ∃ m, firstMaxByFlops info = some m ∧ m ∈ info ∧
      optimizeLatency info = some (setPart (initZero info) m.1 1) := by
  cases hf : firstMaxByFlops info with
  | none =>
    exfalso
    cases info with
    | nil => exact hne rfl
    | cons p rest => cases hf
  | some m =>
    have hm : m ∈ info := firstMaxByFlops_mem hf
    refine ⟨m, rfl, hm, ?_⟩
    simp only [optimizeLatency, hf]
    rw [show min totalLayers m.2.maxFraction = 1 by
      rw [hmax m hm, totalLayers, min_self]]
    rw [show totalLayers - 1 = 0 by rw [totalLayers]; ring]
    rw [if_neg (by norm_num [eps])]

theorem reorderBy_perm {order : List Nat} {parts : List (Nat × ℚ)}
    (hnd : (parts.map Prod.fst).Nodup) (horder : order.Perm (parts.map Prod.fst)) :
    (reorderBy order parts).Perm parts := by
  have := horder.map fun id => (id, getPart parts id)
  rw [reorderBy]
  refine this.trans ?_
  rw [show (fun id => (id, getPart parts id))
      = fun id => (id, (alookup parts id).getD 0) from rfl]
  rw [alookup_self_map parts 0 hnd]

theorem optimizeBalanced_noCap {info : List (Nat × Info)} (lat : Nat → Nat → ℚ)
    (hnd : (info.map Prod.fst).Nodup)
    (hflops : ∀ p ∈ info, 0 < p.2.flops)
    (hmax : ∀ p ∈ info, p.2.maxFraction = 1) (hne : info ≠ []) :
    optimizeBalanced info lat
      = some (reorderBy (findMinLatencyOrder (info.map Prod.fst) lat)
          (info.map fun p => (p.1, p.2.flops / (info.map (·.2.flops)).sum))) := by
  have htot := total_flops_pos hflops hne
  have hnn : ∀ x ∈ info.map (·.2.flops), 0 ≤ x := by
    intro x hx
    rcases List.mem_map.mp hx with ⟨r, hr, he2⟩
    exact he2 ▸ le_of_lt (hflops r hr)
  set total := (info.map (·.2.flops)).sum with htotal
  set P := info.map fun p => (p.1, p.2.flops / total) with hP
  set order := findMinLatencyOrder (info.map Prod.fst) lat with horderdef
  have hPkeys : P.map Prod.fst = info.map Prod.fst := by
    rw [hP, List.map_map]
    rfl
  have hPmem : ∀ q ∈ P, ∃ p ∈ info, q = (p.1, p.2.flops / total) := by
    intro q hq
    rcases List.mem_map.mp hq with ⟨p, hp, he⟩
    exact ⟨p, hp, he.symm⟩
  have hPval : ∀ q ∈ P, 0 < q.2 ∧ q.2 ≤ 1 ∧ (getInfo info q.1).maxFraction = 1 := by
    intro q hq
    rcases hPmem q hq with ⟨p, hp, he⟩
    subst he
    refine ⟨div_pos (hflops p hp) htot, ?_, ?_⟩
    · exact (div_le_one htot).mpr
        (List.single_le_sum hnn _ (List.mem_map.mpr ⟨p, hp, rfl⟩))
    · rw [getInfo_eq_of_mem hnd (show (p.1, p.2) ∈ info from hp), hmax p hp]
  have hPsum : (P.map Prod.snd).sum = 1 := by
    rw [hP, htotal, ← initProportional_noCap hflops hmax,
      initProportional_noCap_sum hflops hmax hne]
  have horder : order.Perm (info.map Prod.fst) := findMinLatencyOrder_perm _ _
  have hre : (reorderBy order P).Perm P :=
    reorderBy_perm (hPkeys ▸ hnd) (hPkeys ▸ horder)
  have hreMem : ∀ q ∈ reorderBy order P, q ∈ P := fun q hq => hre.subset hq
  have hreSum : ((reorderBy order P).map Prod.snd).sum = 1 := by
    rw [List.Perm.sum_eq (hre.map Prod.snd), hPsum]
  simp only [optimizeBalanced]
  rw [if_neg (by push_neg; intro _; exact ne_of_gt htot)]
  rw [initProportional_noCap hflops hmax, ← htotal, ← hP, ← horderdef, hreSum]
  rw [if_neg one_ne_zero]
  have hfactors : ∀ x ∈ ((reorderBy order P).filter fun p => decide (p.2 > 0)).map
      (fun p => (getInfo info p.1).maxFraction / p.2), totalLayers / 1 ≤ x := by
    intro x hx
    rcases List.mem_map.mp hx with ⟨q, hq, he⟩
    have hq2 := hreMem q (List.mem_of_mem_filter hq)
    obtain ⟨hv1, hv2, hv3⟩ := hPval q hq2
    rw [← he, hv3, totalLayers]
    rw [show (1:ℚ)/1 = 1 by norm_num]
    rw [le_div_iff₀ hv1, one_mul]
    exact hv2
  rw [foldl_min_of_le hfactors]
  have hparts2 : ((reorderBy order P).map fun p =>
      (p.1, min (p.2 * (totalLayers / 1)) (getInfo info p.1).maxFraction))
      = reorderBy order P := by
    have : ∀ p ∈ reorderBy order P,
        (p.1, min (p.2 * (totalLayers / 1)) (getInfo info p.1).maxFraction) = p := by
      intro p hp
      obtain ⟨hv1, hv2, hv3⟩ := hPval p (hreMem p hp)
      rw [hv3, totalLayers]
      rw [show p.2 * ((1:ℚ)/1) = p.2 by ring]
      rw [min_eq_left hv2]
    rw [List.map_congr_left this]
    simp
  rw [hparts2, hreSum]
  rw [show totalLayers - 1 = 0 by rw [totalLayers]; ring]
  rw [if_neg (by norm_num [eps])]
  congr 1
  apply clampToMax_eq
  intro p hp
  obtain ⟨_, hv2, hv3⟩ := hPval p (hreMem p hp)
  rw [hv3]
  exact hv2

theorem propMap_sum {info : List (Nat × Info)}
    (hflops : ∀ p ∈ info, 0 < p.2.flops)
    (hmax : ∀ p ∈ info, p.2.maxFraction = 1) (hne : info ≠ []) :
    ((info.map fun p => (p.1, p.2.flops / (info.map (·.2.flops)).sum)).map
      Prod.snd).sum = 1 := by
  rw [← initProportional_noCap hflops hmax]
  exact initProportional_noCap_sum hflops hmax hne

theorem assembled_props {parts : List (Nat × ℚ)} {ids : List Nat}
    (hkeys : (parts.map Prod.fst).Perm ids)
    (hsum : (parts.map Prod.snd).sum = 1) (hne : parts ≠ []) :
    assemble (sortByKey parts) 0 ≠ [] ∧
    List.Chain' (fun p q => p.stop = q.start) (assemble (sortByKey parts) 0) ∧
    ((assemble (sortByKey parts) 0).map Partition.nodeId).Perm ids ∧
    (((assemble (sortByKey parts) 0).map Partition.width).sum = 1) ∧
    (∀ p ∈ (assemble (sortByKey parts) 0).head?, p.start = 0) ∧
    (∀ p ∈ (assemble (sortByKey parts) 0).getLast?, p.stop = 1) := by
  have hperm : (sortByKey parts).Perm parts := sortByKey_perm parts
  have hkeys2 : ((sortByKey parts).map Prod.fst).Perm ids :=
    (hperm.map Prod.fst).trans hkeys
  have hsum2 : ((sortByKey parts).map Prod.snd).sum = 1 := by
    rw [List.Perm.sum_eq (hperm.map Prod.snd), hsum]
  have hnodes : (assemble (sortByKey parts) 0).map Partition.nodeId
      = (sortByKey parts).map Prod.fst := assemble_map_nodeId _ _
  have hne2 : assemble (sortByKey parts) 0 ≠ [] := by
    intro h
    have h1 : (sortByKey parts).map Prod.fst = [] := by
      rw [← hnodes, h, List.map_nil]
    have h2 : sortByKey parts = [] := List.map_eq_nil_iff.mp h1
    exact hne (List.Perm.eq_nil (h2 ▸ hperm.symm))
  refine ⟨hne2, assemble_chain' _ _, ?_, ?_, ?_, ?_⟩
  · rw [hnodes]
    exact hkeys2
  · rw [assemble_width_sum, hsum2, zero_add, round5_one, round5_zero, sub_zero]
  · intro p hp
    rw [assemble_head_start (Option.mem_def.mp hp), round5_zero]
  · intro p hp
    rw [assemble_getLast_stop _ _ _ (Option.mem_def.mp hp), hsum2, zero_add,
      round5_one]

theorem partition_noM_spec (mode : Mode) (topo : Topology)
    (hnd : (topo.nodes.map Prod.fst).Nodup)
    (hpos : ∀ p ∈ topo.nodes, 0 < p.2.flops.fp32)
    (hne : topo.nodes ≠ []) :
    ∃ ps, partition mode topo none = some ps ∧ ps ≠ [] ∧
      List.Chain' (fun p q => p.stop = q.start) ps ∧
      (ps.map Partition.nodeId).Perm (topo.nodes.map Prod.fst) ∧
      ((ps.map Partition.width).sum = 1) ∧
      (∀ p ∈ ps.head?, p.start = 0) ∧
      (∀ p ∈ ps.getLast?, p.stop = 1) := by
  have hkeys : (mkDeviceInfo topo.nodes none).map Prod.fst
      = topo.nodes.map Prod.fst := mkDeviceInfo_map_fst _ _
  have hnd' : ((mkDeviceInfo topo.nodes none).map Prod.fst).Nodup := by
    rw [hkeys]; exact hnd
  have hflops : ∀ p ∈ mkDeviceInfo topo.nodes none, 0 < p.2.flops := by
    intro p hp
    rcases List.mem_map.mp hp with ⟨q, hq, he⟩
    rw [← he]
    exact hpos q hq
  have hmax : ∀ p ∈ mkDeviceInfo topo.nodes none, p.2.maxFraction = 1 :=
    fun _ hp => mkDeviceInfo_none_maxFraction hp
  have hne' : mkDeviceInfo topo.nodes none ≠ [] := by
    intro h
    exact hne (List.map_eq_nil_iff.mp (by rw [mkDeviceInfo] at h; exact h))
  cases mode with
  | throughput =>
    have hopt := optimizeThroughput_noCap hnd' hflops hmax hne'
    refine ⟨_, by simp only [partition, hopt]; rfl, ?_⟩
    apply assembled_props
    · rw [show ((mkDeviceInfo topo.nodes none).map fun p =>
          (p.1, p.2.flops / ((mkDeviceInfo topo.nodes none).map (·.2.flops)).sum)).map
          Prod.fst = (mkDeviceInfo topo.nodes none).map Prod.fst by
        rw [List.map_map]; rfl]
      rw [hkeys]
    · exact propMap_sum hflops hmax hne'
    · intro h
      exact hne' (List.map_eq_nil_iff.mp h)
  | latency =>
    obtain ⟨m, hfm, hm, hopt⟩ := optimizeLatency_noCap hmax hne'
    refine ⟨_, by simp only [partition, hopt]; rfl, ?_⟩
    apply assembled_props
    · rw [setPart_map_fst]
      rw [show (initZero (mkDeviceInfo topo.nodes none)).map Prod.fst
          = (mkDeviceInfo topo.nodes none).map Prod.fst by
        rw [initZero, List.map_map]; rfl]
      rw [hkeys]
    · exact setPart_initZero_sum hnd' (List.mem_map.mpr ⟨m, hm, rfl⟩)
    · intro h
      have : initZero (mkDeviceInfo topo.nodes none) = [] := by
        have := congrArg (List.map Prod.fst) h
        rw [setPart_map_fst] at this
        exact List.map_eq_nil_iff.mp this
      rw [initZero] at this
      exact hne' (List.map_eq_nil_iff.mp this)
  | balanced =>
    have hopt := optimizeBalanced_noCap topo.latency hnd' hflops hmax hne'
    refine ⟨_, by simp only [partition, hopt]; rfl, ?_⟩
    have horder : (findMinLatencyOrder ((mkDeviceInfo topo.nodes none).map Prod.fst)
        topo.latency).Perm ((mkDeviceInfo topo.nodes none).map Prod.fst) :=
      findMinLatencyOrder_perm _ _
    have hPkeys : ((mkDeviceInfo topo.nodes none).map fun p =>
        (p.1, p.2.flops / ((mkDeviceInfo topo.nodes none).map (·.2.flops)).sum)).map
        Prod.fst = (mkDeviceInfo topo.nodes none).map Prod.fst := by
      rw [List.map_map]; rfl
    have hre : (reorderBy (findMinLatencyOrder
        ((mkDeviceInfo topo.nodes none).map Prod.fst) topo.latency)
        ((mkDeviceInfo topo.nodes none).map fun p =>
          (p.1, p.2.flops / ((mkDeviceInfo topo.nodes none).map (·.2.flops)).sum))).Perm
        ((mkDeviceInfo topo.nodes none).map fun p =>
          (p.1, p.2.flops / ((mkDeviceInfo topo.nodes none).map (·.2.flops)).sum)) := by
      apply reorderBy_perm
      · rw [hPkeys]; exact hnd'
      · rw [hPkeys]; exact horder
    apply assembled_props
    · refine ((hre.map Prod.fst).trans ?_)
      rw [hPkeys, hkeys]
    · rw [List.Perm.sum_eq (hre.map Prod.snd)]
      exact propMap_sum hflops hmax hne'
    · intro h
      rw [h] at hre
      exact hne' (List.map_eq_nil_iff.mp (List.Perm.nil_eq hre).symm)

/-- C1 (amended): for every topology whose nodes have unique ids and
positive fp32 FLOPS, and for every mode, `partition` called WITHOUT a
`model_memory_requirement` returns a list that is contiguous (each
partition's rounded end equals the next one's rounded start), covers
`[0, 1]` exactly (first start 0, last end 1, widths summing to 1,
well within the claimed `1e-4`), and contains every node of the
topology exactly once.  (The original claim also asserted the coverage
with a memory requirement; the counterexample refutes that.) -/
theorem partition_noMem_laws (mode : Mode) (topo : Topology)
    (hnd : (topo.nodes.map Prod.fst).Nodup)
    (hpos : ∀ p ∈ topo.nodes, 0 < p.2.flops.fp32)
    (hne : topo.nodes ≠ []) :
    ∃ ps, partition mode topo none = some ps ∧
      List.Chain' (fun p q => p.stop = q.start) ps ∧
      (ps.map Partition.nodeId).Perm (topo.nodes.map Prod.fst) ∧
      ((ps.map Partition.width).sum = 1) ∧
      (∀ p ∈ ps.head?, p.start = 0) ∧
      (∀ p ∈ ps.getLast?, p.stop = 1) := by
  obtain ⟨ps, h1, _, h3, h4, h5, h6, h7⟩ := partition_noM_spec mode topo hnd hpos hne
  exact ⟨ps, h1, h3, h4, h5, h6, h7⟩

/-- C1 (counterexample): with a `model_memory_requirement` of 10000 and
one node of memory 4000 (so at least one node, mode `throughput`), the
returned list has total width `2/5`, farther than `1e-4` from covering
`[0, 1]`, refuting the claim as stated ("with or without a
model_memory_requirement"). -/
theorem partition_memCap_counterexample :
    partition .throughput topoMemCap (some 10000)
      = some [⟨0, 0, 2/5⟩] ∧
    ¬ |(([⟨0, 0, 2/5⟩] : List Partition).map Partition.width).sum - 1|
      ≤ 1/10000 := by
  constructor
  · norm_num [partition, topoMemCap, mkDeviceInfo, optimizeThroughput,
      initProportional, redistribute_of_avail_nil, redistFuel, availableDevices,
      getPart, alookup, clampToMax, getInfo, sortByKey, List.insertionSort,
      assemble, eps, totalLayers, round5, round_eq]
  · norm_num [Partition.width, abs_le]

theorem partition_noMem_laws_witness :
    ((topoTwo.nodes.map Prod.fst).Nodup ∧
      (∀ p ∈ topoTwo.nodes, 0 < p.2.flops.fp32) ∧ topoTwo.nodes ≠ []) ∧
    (∃ ps, partition .balanced topoTwo none = some ps ∧
      List.Chain' (fun p q => p.stop = q.start) ps ∧
      (ps.map Partition.nodeId).Perm (topoTwo.nodes.map Prod.fst) ∧
      ((ps.map Partition.width).sum = 1) ∧
      (∀ p ∈ ps.head?, p.start = 0) ∧
      (∀ p ∈ ps.getLast?, p.stop = 1)) :=
  ⟨⟨by decide, by decide, by decide⟩,
    partition_noMem_laws .balanced topoTwo (by decide) (by decide) (by decide)⟩

/-- C2 (amended): neither implementation coerces the last partition's
end towards `1.0`: the emitted end is always `round(start + share, 5)`.
What holds instead is that, in every mode, a call WITHOUT a memory
requirement (positive FLOPS, unique ids) ends exactly at `1.0` because
the assigned shares sum to 1 exactly; the counterexample shows a last
end within `1e-4` of 1 that is NOT set to `1.0`. -/
theorem partition_noMem_last_stop_one (mode : Mode) (topo : Topology)
    (hnd : (topo.nodes.map Prod.fst).Nodup)
    (hpos : ∀ p ∈ topo.nodes, 0 < p.2.flops.fp32)
    (hne : topo.nodes ≠ []) :
    ∃ ps, partition mode topo none = some ps ∧ ps ≠ [] ∧
      (∀ p ∈ ps.getLast?, p.stop = 1) := by
  obtain ⟨ps, h1, h2, _, _, _, _, h7⟩ := partition_noM_spec mode topo hnd hpos hne
  exact ⟨ps, h1, h2, h7⟩

/-- C2 (counterexample): one node of memory 99995 with requirement
100000 (mode `throughput`): the last partition's end is `0.99995`,
within `1e-4` of 1, yet the returned end is NOT `1.0` — no coercion
exists in the code. -/
theorem partition_last_end_not_coerced :
    partition .throughput topoNear1 (some 100000)
      = some [⟨0, 0, 19999/20000⟩] ∧
    |(1 : ℚ) - 19999/20000| ≤ 1/10000 ∧ ((19999 : ℚ)/20000) ≠ 1 := by
  refine ⟨?_, by norm_num [abs_le], by norm_num⟩
  norm_num [partition, topoNear1, mkDeviceInfo, optimizeThroughput,
    initProportional, redistribute_of_avail_nil, redistFuel, availableDevices,
    getPart, alookup, clampToMax, getInfo, sortByKey, List.insertionSort,
    assemble, eps, totalLayers, round5, round_eq]

theorem partition_noMem_last_stop_one_witness :
    ((topoTwo.nodes.map Prod.fst).Nodup ∧
      (∀ p ∈ topoTwo.nodes, 0 < p.2.flops.fp32) ∧ topoTwo.nodes ≠ []) ∧
    (∃ ps, partition .throughput topoTwo none = some ps ∧ ps ≠ [] ∧
      (∀ p ∈ ps.getLast?, p.stop = 1)) :=
  ⟨⟨by decide, by decide, by decide⟩,
    partition_noMem_last_stop_one .throughput topoTwo
      (by decide) (by decide) (by decide)⟩

/-- C10 (confirmed): on the empty topology, `partition` returns the
empty list in mode `throughput` but no list at all in mode `latency`
(Python `max` over an empty collection raises `ValueError`) or mode
`balanced` (`total_layers / total_assigned_fraction` raises
`ZeroDivisionError` when the total assigned fraction is zero); the
operation is not total over all topologies. -/
theorem partition_empty_topology :
    partition .throughput emptyTopo none = some [] ∧
    partition .latency emptyTopo none = none ∧
    partition .balanced emptyTopo none = none := by
  refine ⟨?_, ?_, ?_⟩
  · norm_num [partition, emptyTopo, mkDeviceInfo, optimizeThroughput,
      initProportional, redistribute_of_avail_nil, redistFuel, availableDevices,
      clampToMax, sortByKey, List.insertionSort, assemble, eps, totalLayers]
  · norm_num [partition, emptyTopo, mkDeviceInfo, optimizeLatency, firstMaxByFlops]
  · norm_num [partition, emptyTopo, mkDeviceInfo, optimizeBalanced,
      initProportional, findMinLatencyOrder, allPerms, insertionsAt,
      pathLatency?, minStep, reorderBy, eps, totalLayers]
theorem firstMaxByFlops_of_strict {info : List (Nat × Info)} {m : Nat × Info}
    (hm : m ∈ info)
    (hstrict : ∀ q ∈ info, q.1 ≠ m.1 → q.2.flops < m.2.flops)
    (huniq : ∀ q ∈ info, q.1 = m.1 → q = m) :
    firstMaxByFlops info = some m := by
  have aux : ∀ (l : List (Nat × Info)) (acc : Nat × Info),
      (m = acc ∨ m ∈ l) →
      (∀ q, (q = acc ∨ q ∈ l) → q.1 ≠ m.1 → q.2.flops < m.2.flops) →
      (∀ q, (q = acc ∨ q ∈ l) → q.1 = m.1 → q = m) →
      l.foldl (fun best q => if q.2.flops > best.2.flops then q else best) acc = m := by
    intro l
    induction l with
    | nil =>
      intro acc hmem _ _
      rcases hmem with h | h
      · exact h.symm
      · cases h
    | cons x xs ih =>
      intro acc hmem hlt heq
      rw [List.foldl_cons]
      have hstep : (if x.2.flops > acc.2.flops then x else acc) = acc ∨
          (if x.2.flops > acc.2.flops then x else acc) = x := by
        by_cases hc : x.2.flops > acc.2.flops
        · exact Or.inr (if_pos hc)
        · exact Or.inl (if_neg hc)
      have hlt' : ∀ q, (q = (if x.2.flops > acc.2.flops then x else acc) ∨ q ∈ xs) →
          q.1 ≠ m.1 → q.2.flops < m.2.flops := by
        intro q hq
        rcases hq with hq | hq
        · rcases hstep with hs | hs
          · exact hlt q (Or.inl (hq.trans hs))
          · refine hlt q (Or.inr ?_)
            rw [hq.trans hs]
            exact List.mem_cons_self _ _
        · exact hlt q (Or.inr (List.mem_cons_of_mem _ hq))
      have heq' : ∀ q, (q = (if x.2.flops > acc.2.flops then x else acc) ∨ q ∈ xs) →
          q.1 = m.1 → q = m := by
        intro q hq
        rcases hq with hq | hq
        · rcases hstep with hs | hs
          · exact heq q (Or.inl (hq.trans hs))
          · refine heq q (Or.inr ?_)
            rw [hq.trans hs]
            exact List.mem_cons_self _ _
        · exact heq q (Or.inr (List.mem_cons_of_mem _ hq))
      apply ih _ ?_ hlt' heq'
      rcases hmem with h | h
      · left
        have hif : (if x.2.flops > acc.2.flops then x else acc) = acc := by
          by_cases hx1 : x.1 = m.1
          · have hx := heq x (Or.inr (List.mem_cons_self _ _)) hx1
            apply if_neg
            rw [hx, ← h]
            exact lt_irrefl _
          · have hxx := hlt x (Or.inr (List.mem_cons_self _ _)) hx1
            apply if_neg
            rw [← h]
            exact not_lt.mpr (le_of_lt hxx)
        rw [hif]
        exact h
      · rcases List.mem_cons.mp h with h2 | h2
        · by_cases hc : x.2.flops > acc.2.flops
          · left
            rw [if_pos hc]
            exact h2
          · left
            by_cases ha1 : acc.1 = m.1
            · have ha := heq acc (Or.inl rfl) ha1
              rw [if_neg hc, ha]
            · exfalso
              have hacc := hlt acc (Or.inl rfl) ha1
              rw [← h2] at hc
              exact hc hacc
        · exact Or.inr h2
  cases info with
  | nil => cases hm
  | cons p rest =>
    simp only [firstMaxByFlops, Option.some.injEq]
    apply aux
    · rcases List.mem_cons.mp hm with h | h
      · exact Or.inl h
      · exact Or.inr h
    · intro q hq
      rcases hq with hq | hq
      · rw [hq]
        exact hstrict p (List.mem_cons_self _ _)
      · exact hstrict q (List.mem_cons_of_mem _ hq)
    · intro q hq
      rcases hq with hq | hq
      · rw [hq]
        exact huniq p (List.mem_cons_self _ _)
      · exact huniq q (List.mem_cons_of_mem _ hq)

/-- C5 (confirmed): in mode `latency` with no memory requirement, on a
topology with unique ids, identical memories and a single node of
strictly maximum fp32 FLOPS, that node's partition has width `1.0` and
every other node's partition has width `0`. -/
theorem latency_strict_max_takes_all (topo : Topology) (m : Nat)
    (capsM : DeviceCapabilities)
    (hnd : (topo.nodes.map Prod.fst).Nodup)
    (hm : (m, capsM) ∈ topo.nodes)
    (hstrict : ∀ q ∈ topo.nodes, q.1 ≠ m → q.2.flops.fp32 < capsM.flops.fp32)
    (_hmem : ∀ q ∈ topo.nodes, q.2.memory = capsM.memory) :
    ∃ ps, partition .latency topo none = some ps ∧
      (ps.map Partition.nodeId).Perm (topo.nodes.map Prod.fst) ∧
      ∀ p ∈ ps, p.width = if p.nodeId = m then 1 else 0 := by
  have hkeys : (mkDeviceInfo topo.nodes none).map Prod.fst
      = topo.nodes.map Prod.fst := mkDeviceInfo_map_fst _ _
  have hmax : ∀ p ∈ mkDeviceInfo topo.nodes none, p.2.maxFraction = 1 :=
    fun _ hp => mkDeviceInfo_none_maxFraction hp
  have hne' : mkDeviceInfo topo.nodes none ≠ [] := by
    intro h
    rw [mkDeviceInfo] at h
    rw [List.map_eq_nil_iff.mp h] at hm
    cases hm
  have hmIn : (m, (⟨capsM.flops.fp32, capsM.memory, 1⟩ : Info))
      ∈ mkDeviceInfo topo.nodes none :=
    List.mem_map.mpr ⟨(m, capsM), hm, rfl⟩
  have hfm : firstMaxByFlops (mkDeviceInfo topo.nodes none)
      = some (m, (⟨capsM.flops.fp32, capsM.memory, 1⟩ : Info)) := by
    apply firstMaxByFlops_of_strict hmIn
    · intro q hq hq1
      rcases List.mem_map.mp hq with ⟨r, hr, he⟩
      have hr1 : r.1 ≠ m := by
        intro hcon
        apply hq1
        rw [← he, hcon]
      have := hstrict r hr hr1
      rw [← he]
      exact this
    · intro q hq hq1
      rcases List.mem_map.mp hq with ⟨r, hr, he⟩
      have hr1 : r.1 = m := by
        rw [← he] at hq1
        exact hq1
      have hrc : r.2 = capsM := by
        have h1 := alookup_eq_of_mem hnd hm
        have h2 := alookup_eq_of_mem hnd (show (r.1, r.2) ∈ topo.nodes from hr)
        rw [hr1, h1] at h2
        exact (Option.some_inj.mp h2).symm
      rw [← he, hr1, hrc]
  obtain ⟨m', hfm', _, hopt⟩ := optimizeLatency_noCap hmax hne'
  have hmm : m' = (m, (⟨capsM.flops.fp32, capsM.memory, 1⟩ : Info)) := by
    rw [hfm] at hfm'
    exact (Option.some_inj.mp hfm').symm
  subst hmm
  refine ⟨_, by simp only [partition, hopt]; rfl, ?_, ?_⟩
  · rw [assemble_map_nodeId]
    refine ((sortByKey_perm _).map Prod.fst).trans ?_
    rw [setPart_map_fst]
    rw [show (initZero (mkDeviceInfo topo.nodes none)).map Prod.fst
        = (mkDeviceInfo topo.nodes none).map Prod.fst by
      rw [initZero, List.map_map]; rfl]
    rw [hkeys]
  · intro p hp
    obtain ⟨t, f, hmem2, hstart, hstop⟩ := assemble_mem _ _ p hp
    have hmem3 : (p.nodeId, f) ∈ setPart (initZero (mkDeviceInfo topo.nodes none)) m 1 :=
      (sortByKey_perm _).subset hmem2
    have hf := setPart_entry hmem3
    rw [Partition.width, hstart, hstop]
    by_cases hpm : p.nodeId = m
    · rw [if_pos hpm]
      rw [if_pos hpm] at hf
      rw [hf, round5_add_one]
      ring
    · rw [if_neg hpm]
      rw [if_neg hpm] at hf
      rw [hf, add_zero]
      ring

theorem latency_strict_max_takes_all_witness :
    ((topoTwo.nodes.map Prod.fst).Nodup ∧ (1, ⟨"Device_B", "Chip_B", 8000, ⟨30, 0, 0⟩⟩) ∈ topoTwo.nodes ∧
      (∀ q ∈ topoTwo.nodes, q.1 ≠ 1 →
        q.2.flops.fp32 < (30 : ℚ)) ∧
      (∀ q ∈ topoTwo.nodes, q.2.memory = (8000 : ℚ))) ∧
    (∃ ps, partition .latency topoTwo none = some ps ∧
      (ps.map Partition.nodeId).Perm (topoTwo.nodes.map Prod.fst) ∧
      ∀ p ∈ ps, p.width = if p.nodeId = 1 then 1 else 0) :=
  ⟨⟨by decide, by decide, by decide, by decide⟩,
    latency_strict_max_takes_all topoTwo 1 ⟨"Device_B", "Chip_B", 8000, ⟨30, 0, 0⟩⟩
      (by decide) (by decide) (by decide) (by decide)⟩
theorem width_close (t f : ℚ) : |(round5 (t + f) - round5 t) - f| ≤ 1/100000 := by
  have h1 := abs_round5_sub (t + f)
  have h2 := abs_round5_sub t
  have he : (round5 (t + f) - round5 t) - f
      = (round5 (t + f) - (t + f)) - (round5 t - t) := by ring
  rw [he]
  calc |(round5 (t + f) - (t + f)) - (round5 t - t)|
      ≤ |round5 (t + f) - (t + f)| + |round5 t - t| := abs_sub _ _
    _ ≤ 1/200000 + 1/200000 := add_le_add h1 h2
    _ = 1/100000 := by norm_num

theorem mkDeviceInfo_total (nodes : List (Nat × DeviceCapabilities)) (M : Option ℚ) :
    ((mkDeviceInfo nodes M).map (·.2.flops)).sum
      = (nodes.map (·.2.flops.fp32)).sum := by
  rw [mkDeviceInfo, List.map_map]
  rfl

theorem optimizeThroughput_nil : optimizeThroughput [] = some [] := by
  norm_num [optimizeThroughput, initProportional, redistribute_of_avail_nil,
    redistFuel, availableDevices, clampToMax, eps, totalLayers]

/-- C3 (confirmed): in mode `throughput` with no memory requirement and
strictly positive fp32 FLOPS (unique ids), every returned partition's
width is within `1e-5` of its node's `flops.fp32` share of the total —
in particular they agree to 4 decimal places. -/
theorem throughput_width_proportional (topo : Topology)
    (hnd : (topo.nodes.map Prod.fst).Nodup)
    (hpos : ∀ p ∈ topo.nodes, 0 < p.2.flops.fp32) :
    ∀ p ∈ (partition .throughput topo none).getD [],
      ∀ caps, (p.nodeId, caps) ∈ topo.nodes →
        |p.width - caps.flops.fp32 / (topo.nodes.map (·.2.flops.fp32)).sum|
          ≤ 1/100000 := by
  by_cases hne : topo.nodes = []
  · intro p hp
    exfalso
    rw [show partition .throughput topo none = some [] by
      simp only [partition]
      rw [hne]
      rw [show mkDeviceInfo [] none = [] from rfl, optimizeThroughput_nil]
      rfl] at hp
    simp [sortByKey, List.insertionSort, assemble] at hp
  · have hkeys : (mkDeviceInfo topo.nodes none).map Prod.fst
        = topo.nodes.map Prod.fst := mkDeviceInfo_map_fst _ _
    have hnd' : ((mkDeviceInfo topo.nodes none).map Prod.fst).Nodup := by
      rw [hkeys]; exact hnd
    have hflops : ∀ p ∈ mkDeviceInfo topo.nodes none, 0 < p.2.flops := by
      intro p hp
      rcases List.mem_map.mp hp with ⟨q, hq, he⟩
      rw [← he]
      exact hpos q hq
    have hmax : ∀ p ∈ mkDeviceInfo topo.nodes none, p.2.maxFraction = 1 :=
      fun _ hp => mkDeviceInfo_none_maxFraction hp
    have hne' : mkDeviceInfo topo.nodes none ≠ [] := by
      intro h
      exact hne (List.map_eq_nil_iff.mp (by rw [mkDeviceInfo] at h; exact h))
    have hopt := optimizeThroughput_noCap hnd' hflops hmax hne'
    intro p hp caps hcaps
    rw [show partition .throughput topo none
        = some (assemble (sortByKey ((mkDeviceInfo topo.nodes none).map fun q =>
            (q.1, q.2.flops / ((mkDeviceInfo topo.nodes none).map (·.2.flops)).sum)))
          0) by simp only [partition, hopt]; rfl] at hp
    rw [Option.getD_some] at hp
    obtain ⟨t, f, hmem2, hstart, hstop⟩ := assemble_mem _ _ p hp
    have hmem3 := (sortByKey_perm _).subset hmem2
    rcases List.mem_map.mp hmem3 with ⟨q, hq, he⟩
    rcases List.mem_map.mp hq with ⟨r, hr, he2⟩
    have hq1 : q.1 = p.nodeId := congrArg Prod.fst he
    have hqf : f = q.2.flops / ((mkDeviceInfo topo.nodes none).map (·.2.flops)).sum :=
      (congrArg Prod.snd he).symm
    have hr1 : r.1 = p.nodeId := by
      rw [← hq1, ← he2]
    have hrc : r.2 = caps := by
      have h1 := alookup_eq_of_mem hnd hcaps
      have h2 := alookup_eq_of_mem hnd (show (r.1, r.2) ∈ topo.nodes from hr)
      rw [hr1, h1] at h2
      exact (Option.some_inj.mp h2).symm
    have hqflops : q.2.flops = caps.flops.fp32 := by
      rw [← he2, ← hrc]
    have hf : f = caps.flops.fp32 / (topo.nodes.map (·.2.flops.fp32)).sum := by
      rw [hqf, hqflops, mkDeviceInfo_total]
    rw [Partition.width, hstart, hstop, ← hf]
    exact width_close t f

theorem throughput_width_proportional_witness :
    ((topoTwo.nodes.map Prod.fst).Nodup ∧
      (∀ p ∈ topoTwo.nodes, 0 < p.2.flops.fp32)) ∧
    (∀ p ∈ (partition .throughput topoTwo none).getD [],
      ∀ caps, (p.nodeId, caps) ∈ topoTwo.nodes →
        |p.width - caps.flops.fp32 / (topoTwo.nodes.map (·.2.flops.fp32)).sum|
          ≤ 1/100000) :=
  ⟨⟨by decide, by decide⟩,
    throughput_width_proportional topoTwo (by decide) (by decide)⟩

theorem clampToMax_entry {info : List (Nat × Info)} {parts : List (Nat × ℚ)} :
    ∀ q ∈ clampToMax info parts, q.2 ≤ (getInfo info q.1).maxFraction := by
  intro q hq
  rcases List.mem_map.mp hq with ⟨r, _, he⟩
  rw [← he]
  exact min_le_right _ _

theorem optimizeThroughput_entry_bound {info : List (Nat × Info)}
    {parts : List (Nat × ℚ)} (h : optimizeThroughput info = some parts) :
    ∀ q ∈ parts, q.2 ≤ (getInfo info q.1).maxFraction := by
  simp only [optimizeThroughput] at h
  split_ifs at h
  rcases Option.map_eq_some'.mp h with ⟨st, _, hst⟩
  rw [← hst]
  exact clampToMax_entry

theorem optimizeBalanced_entry_bound {info : List (Nat × Info)}
    {lat : Nat → Nat → ℚ} {parts : List (Nat × ℚ)}
    (h : optimizeBalanced info lat = some parts) :
    ∀ q ∈ parts, q.2 ≤ (getInfo info q.1).maxFraction := by
  simp only [optimizeBalanced] at h
  split_ifs at h
  · rcases Option.map_eq_some'.mp h with ⟨st, _, hst⟩
    rw [← hst]
    exact clampToMax_entry
  · rw [← Option.some_inj.mp h]
    exact clampToMax_entry

theorem latencyFill_entry_bound {info : List (Nat × Info)}
    (hnd : (info.map Prod.fst).Nodup) :
    ∀ (rem : List (Nat × Info)) (parts : List (Nat × ℚ)) (un : ℚ),
    (∀ q ∈ rem, q ∈ info) →
    (∀ q ∈ parts, q.2 ≤ (getInfo info q.1).maxFraction) →
    ∀ q ∈ (latencyFill rem parts un).1, q.2 ≤ (getInfo info q.1).maxFraction := by
  intro rem
  induction rem with
  | nil =>
    intro parts un _ hinv q hq
    exact hinv q hq
  | cons x rest ih =>
    intro parts un hsub hinv
    obtain ⟨id, i⟩ := x
    have hxin : (id, i) ∈ info := hsub (id, i) (List.mem_cons_self _ _)
    have hgi : getInfo info id = i := getInfo_eq_of_mem hnd hxin
    have hinv' : ∀ q ∈ setPart parts id (min i.maxFraction un),
        q.2 ≤ (getInfo info q.1).maxFraction := by
      intro q hq
      obtain ⟨k, w⟩ := q
      rcases mem_setPart hq with ⟨hk, hw⟩ | hq2
      · subst hk
        rw [hgi, hw]
        exact min_le_left _ _
      · exact hinv (k, w) hq2
    rw [latencyFill]
    split_ifs
    · intro q hq
      exact hinv' q hq
    · exact ih _ _ (fun q hq => hsub q (List.mem_cons_of_mem _ hq)) hinv'

theorem optimizeLatency_entry_bound {info : List (Nat × Info)}
    {parts : List (Nat × ℚ)} (hnd : (info.map Prod.fst).Nodup)
    (hmax0 : ∀ p ∈ info, 0 ≤ p.2.maxFraction)
    (h : optimizeLatency info = some parts) :
    ∀ q ∈ parts, q.2 ≤ (getInfo info q.1).maxFraction := by
  cases hfm : firstMaxByFlops info with
  | none =>
    simp only [optimizeLatency, hfm] at h
    cases h
  | some m =>
    have hmIn := firstMaxByFlops_mem hfm
    have hgm : getInfo info m.1 = m.2 :=
      getInfo_eq_of_mem hnd (show (m.1, m.2) ∈ info from hmIn)
    have hbase : ∀ q ∈ setPart (initZero info) m.1 (min totalLayers m.2.maxFraction),
        q.2 ≤ (getInfo info q.1).maxFraction := by
      intro q hq
      obtain ⟨k, w⟩ := q
      have hw := setPart_entry hq
      by_cases hk : k = m.1
      · rw [if_pos hk] at hw
        rw [hw, hk, hgm]
        exact min_le_right _ _
      · rw [if_neg hk] at hw
        rcases mem_setPart hq with ⟨hk2, _⟩ | hq2
        · exact absurd hk2 hk
        · rcases List.mem_map.mp hq2 with ⟨r, hr, he⟩
          have hk3 : k = r.1 := (congrArg Prod.fst he).symm
          rw [hw, hk3, getInfo_eq_of_mem hnd (show (r.1, r.2) ∈ info from hr)]
          exact hmax0 r hr
    simp only [optimizeLatency, hfm] at h
    split_ifs at h
    · rw [← Option.some_inj.mp h]
      apply latencyFill_entry_bound hnd
      · intro q hq
        have hq2 := (List.perm_insertionSort _ _).subset hq
        exact (List.mem_filter.mp hq2).1
      · exact hbase
    · rw [← Option.some_inj.mp h]
      exact hbase

/-- C4 (confirmed): for every topology (unique ids, nonnegative
memories) and every mode, when `partition` is called with a positive
`model_memory_requirement` M, every returned partition's width is at
most `min 1 (memory / M) + 1e-5` for its node's declared memory. -/
theorem memCap_width_le (mode : Mode) (topo : Topology) (M : ℚ)
    (hM : 0 < M)
    (hmem0 : ∀ p ∈ topo.nodes, 0 ≤ p.2.memory)
    (hnd : (topo.nodes.map Prod.fst).Nodup) :
    ∀ p ∈ (partition mode topo (some M)).getD [],
      ∀ caps, (p.nodeId, caps) ∈ topo.nodes →
        p.width ≤ min 1 (caps.memory / M) + 1/100000 := by
  have hkeys : (mkDeviceInfo topo.nodes (some M)).map Prod.fst
      = topo.nodes.map Prod.fst := mkDeviceInfo_map_fst _ _
  have hnd' : ((mkDeviceInfo topo.nodes (some M)).map Prod.fst).Nodup := by
    rw [hkeys]; exact hnd
  have hmax0 : ∀ p ∈ mkDeviceInfo topo.nodes (some M), 0 ≤ p.2.maxFraction := by
    intro p hp
    rcases List.mem_map.mp hp with ⟨q, hq, he⟩
    rw [← he]
    simp only
    rw [if_neg (ne_of_gt hM)]
    exact le_min (by norm_num) (div_nonneg (hmem0 q hq) (le_of_lt hM))
  have hbound : ∀ parts : List (Nat × ℚ),
      (match mode with
        | Mode.throughput => optimizeThroughput (mkDeviceInfo topo.nodes (some M))
        | Mode.latency => optimizeLatency (mkDeviceInfo topo.nodes (some M))
        | Mode.balanced => optimizeBalanced (mkDeviceInfo topo.nodes (some M))
            topo.latency) = some parts →
      ∀ q ∈ parts, q.2 ≤ (getInfo (mkDeviceInfo topo.nodes (some M)) q.1).maxFraction := by
    cases mode with
    | throughput => exact fun parts h => optimizeThroughput_entry_bound h
    | latency => exact fun parts h => optimizeLatency_entry_bound hnd' hmax0 h
    | balanced => exact fun parts h => optimizeBalanced_entry_bound h
  intro p hp caps hcaps
  cases hres : (match mode with
      | Mode.throughput => optimizeThroughput (mkDeviceInfo topo.nodes (some M))
      | Mode.latency => optimizeLatency (mkDeviceInfo topo.nodes (some M))
      | Mode.balanced => optimizeBalanced (mkDeviceInfo topo.nodes (some M))
          topo.latency) with
  | none =>
    rw [show partition mode topo (some M) = none by
      simp only [partition]
      rw [hres]
      rfl] at hp
    cases hp
  | some parts =>
    rw [show partition mode topo (some M) = some (assemble (sortByKey parts) 0) by
      simp only [partition]
      rw [hres]
      rfl] at hp
    rw [Option.getD_some] at hp
    obtain ⟨t, f, hmem2, hstart, hstop⟩ := assemble_mem _ _ p hp
    have hmem3 := (sortByKey_perm _).subset hmem2
    have hfb : f ≤ (getInfo (mkDeviceInfo topo.nodes (some M)) p.nodeId).maxFraction :=
      hbound parts hres (p.nodeId, f) hmem3
    have hgi : getInfo (mkDeviceInfo topo.nodes (some M)) p.nodeId
        = ⟨caps.flops.fp32, caps.memory, min 1 (caps.memory / M)⟩ := by
      have : (p.nodeId, (⟨caps.flops.fp32, caps.memory,
          min 1 (caps.memory / M)⟩ : Info)) ∈ mkDeviceInfo topo.nodes (some M) := by
        refine List.mem_map.mpr ⟨(p.nodeId, caps), hcaps, ?_⟩
        simp only
        rw [if_neg (ne_of_gt hM)]
      exact getInfo_eq_of_mem hnd' this
    have hwidth : p.width ≤ f + 1/100000 := by
      rw [Partition.width, hstart, hstop]
      have := width_close t f
      rw [abs_le] at this
      linarith [this.2]
    calc p.width ≤ f + 1/100000 := hwidth
      _ ≤ min 1 (caps.memory / M) + 1/100000 := by
          rw [hgi] at hfb
          exact add_le_add_right hfb _

theorem memCap_width_le_witness :
    ((0 : ℚ) < 10000 ∧ (∀ p ∈ topoMemCap.nodes, 0 ≤ p.2.memory) ∧
      (topoMemCap.nodes.map Prod.fst).Nodup) ∧
    (∀ p ∈ (partition .throughput topoMemCap (some 10000)).getD [],
      ∀ caps, (p.nodeId, caps) ∈ topoMemCap.nodes →
        p.width ≤ min 1 (caps.memory / 10000) + 1/100000) :=
  ⟨⟨by decide, by decide, by decide⟩,
    memCap_width_le .throughput topoMemCap 10000 (by decide) (by decide) (by decide)⟩

/-- C6 (amended): `_find_min_latency_order` inspects only PATH edges
`perm[i] → perm[i+1]` — the wrap-around edge of the ring is neither
latency-summed nor checked against the 50 threshold.  What the search
actually computes: either every permutation of the ids has some path
edge above 50 and the insertion order is returned, or the returned
ordering is a permutation of the ids, all of whose path edges are at
most 50, of minimal total PATH latency among all such permutations. -/
theorem findMinLatencyOrder_path_optimal (ids : List Nat) (lat : Nat → Nat → ℚ) :
    (findMinLatencyOrder ids lat = ids ∧
      ∀ p, p.Perm ids → pathLatency? lat p = none) ∨
    ((findMinLatencyOrder ids lat).Perm ids ∧
      ∃ t, pathLatency? lat (findMinLatencyOrder ids lat) = some t ∧
        ∀ p, p.Perm ids → ∀ u, pathLatency? lat p = some u → t ≤ u) := by
  cases hf : (allPerms ids).foldl (minStep lat) none with
  | none =>
    left
    have hall := (foldl_minStep_eq_none (allPerms ids) none).mp hf
    constructor
    · rw [findMinLatencyOrder, hf]
    · intro p hp
      exact hall.2 p (perm_mem_allPerms hp)
  | some b =>
    right
    obtain ⟨bb, t⟩ := b
    obtain ⟨h1, h2, h3, _⟩ := foldl_minStep_eq_some (allPerms ids) none bb t
      (by intro b0 t0 hc; cases hc) hf
    have hres : findMinLatencyOrder ids lat = bb := by
      rw [findMinLatencyOrder, hf]
    have hbb : bb ∈ allPerms ids := by
      rcases h2 with h2 | h2
      · exact h2
      · cases h2
    rw [hres]
    refine ⟨mem_allPerms_perm hbb, t, h1, ?_⟩
    intro p hp u hu
    exact h3 p (perm_mem_allPerms hp) u hu

/-- C6 (counterexample): with insertion order `[2, 0, 1]` and latencies
`latTriangle`, EVERY cyclic ordering has a ring edge (wrap-around
included) above 50, so the claim as stated requires the insertion order
`[2, 0, 1]` to be returned — but the source returns `[0, 1, 2]` (the
cheapest path, whose wrap-around edge `2 → 0` has latency 100). -/
theorem findMinLatencyOrder_ring_counterexample :
    findMinLatencyOrder [2, 0, 1] latTriangle = [0, 1, 2] ∧
    (∀ p, p.Perm [2, 0, 1] → ¬ RingAdmissible latTriangle p) ∧
    [0, 1, 2] ≠ [2, 0, 1] := by
  refine ⟨?_, ?_, by decide⟩
  · norm_num [findMinLatencyOrder, allPerms, insertionsAt, pathLatency?,
      minStep, latTriangle]
  · intro p hp
    have hmem := perm_mem_allPerms hp
    have h6 : p = [2, 0, 1] ∨ p = [0, 2, 1] ∨ p = [0, 1, 2] ∨
        p = [2, 1, 0] ∨ p = [1, 2, 0] ∨ p = [1, 0, 2] := by
      simp only [allPerms, insertionsAt, List.map, List.flatten,
        List.append_nil, List.mem_append, List.mem_singleton,
        List.mem_cons, List.not_mem_nil, or_false] at hmem
      tauto
    rcases h6 with rfl | rfl | rfl | rfl | rfl | rfl <;> decide

end AdvancedStrategy

namespace AdvancedPartitioningStrategy

/-- C7 (amended): the `normalized_latency` term of
`_calculate_node_score` is `1 - avg_latency` with NO clamping: it
agrees with the spec's clamped-to-`[0,1]` value exactly when
`0 ≤ avg_latency ≤ 1`, and it IS negative whenever the average latency
exceeds `1.0` (the claim asserted it never is). -/
theorem normalizedLatency_unclamped (topo : Topology)
    (caps : DeviceCapabilities) (nodeId : Nat)
    (h1 : findNodeIdByCaps topo caps = some nodeId)
    (h2 : otherNodeIds topo nodeId ≠ []) :
    normalizedLatency topo caps = some (1 - avgLatency topo nodeId) ∧
    (1 < avgLatency topo nodeId → 1 - avgLatency topo nodeId < 0) ∧
    (0 ≤ avgLatency topo nodeId → avgLatency topo nodeId ≤ 1 →
      normalizedLatency topo caps = some (specNormalizedLatency topo nodeId)) := by
  have hval : normalizedLatency topo caps = some (1 - avgLatency topo nodeId) := by
    rw [normalizedLatency, h1, Option.map_some']
    rw [if_pos h2, div_one]
  refine ⟨hval, by intro h; linarith, ?_⟩
  intro ha0 ha1
  rw [hval, specNormalizedLatency, if_pos h2, div_one]
  congr 1
  rw [min_eq_right (by linarith), max_eq_right (by linarith)]

theorem normalizedLatency_unclamped_witness :
    (findNodeIdByCaps topoSlowLink ⟨"Device_A", "Chip_A", 8000, ⟨10, 0, 0⟩⟩
        = some 0 ∧ otherNodeIds topoSlowLink 0 ≠ []) ∧
    (normalizedLatency topoSlowLink ⟨"Device_A", "Chip_A", 8000, ⟨10, 0, 0⟩⟩
        = some (1 - avgLatency topoSlowLink 0) ∧
      (1 < avgLatency topoSlowLink 0 → 1 - avgLatency topoSlowLink 0 < 0) ∧
      (0 ≤ avgLatency topoSlowLink 0 → avgLatency topoSlowLink 0 ≤ 1 →
        normalizedLatency topoSlowLink ⟨"Device_A", "Chip_A", 8000, ⟨10, 0, 0⟩⟩
          = some (specNormalizedLatency topoSlowLink 0))) :=
  ⟨⟨by decide, by decide⟩,
    normalizedLatency_unclamped topoSlowLink
      ⟨"Device_A", "Chip_A", 8000, ⟨10, 0, 0⟩⟩ 0 (by decide) (by decide)⟩

/-- C7 (counterexample): on `topoSlowLink` the average latency from
node 0 is 2.0, the source computes a normalized latency of `-1`
(negative, NOT clamped), while the clamped value the claim mandates is
`0`. -/
theorem normalizedLatency_negative_counterexample :
    normalizedLatency topoSlowLink ⟨"Device_A", "Chip_A", 8000, ⟨10, 0, 0⟩⟩
      = some (-1) ∧
    specNormalizedLatency topoSlowLink 0 = 0 ∧ ((-1 : ℚ) < 0) := by
  refine ⟨?_, ?_, by norm_num⟩
  · norm_num [normalizedLatency, findNodeIdByCaps, topoSlowLink, otherNodeIds,
      avgLatency, List.find?]
  · norm_num [specNormalizedLatency, topoSlowLink, otherNodeIds, avgLatency]

end AdvancedPartitioningStrategy

namespace UDPDiscovery

theorem except_bind_ok {α β : Type} (a : α) (f : α → Except PyErr β) :
    ((Except.ok a : Except PyErr α) >>= f) = f a := rfl

theorem except_bind_err {α β : Type} (e : PyErr) (f : α → Except PyErr β) :
    ((Except.error e : Except PyErr α) >>= f) = Except.error e := rfl

theorem onListenMessage_self_drop (st : DiscoveryState)
    (health : PeerHandle → Bool) (now : ℚ) (srcIp : String) (v : JsonValue)
    (ht : v.getItem "type" = Except.ok (JsonValue.str "discovery"))
    (hn : v.getItem "node_id" = Except.ok (JsonValue.str st.nodeId)) :
    onListenMessage st health now srcIp (RecvData.decoded v) = Except.ok st := by
  simp only [onListenMessage, ht, except_bind_ok, hn]
  rw [if_pos (by rw [JsonValue.eqStr]; exact beq_self_eq_true "discovery"),
    if_pos (by rw [JsonValue.eqStr]; exact beq_self_eq_true st.nodeId)]

/-- C8 (confirmed): a decoded JSON object whose `type` field is not the
string `"discovery"`, or whose `node_id` equals the local node id,
leaves `known_peers` unchanged (the handler returns the state as it
was); in particular no sequence of self-announcements ever changes the
`known_peers` table. -/
theorem onListenMessage_drop_preserves_peers :
    (∀ (st : DiscoveryState) (health : PeerHandle → Bool) (now : ℚ)
        (srcIp : String) (v : JsonValue),
      ((∃ t, v.getItem "type" = Except.ok t ∧ t.eqStr "discovery" = false) ∨
        (v.getItem "type" = Except.ok (JsonValue.str "discovery") ∧
          v.getItem "node_id" = Except.ok (JsonValue.str st.nodeId))) →
      onListenMessage st health now srcIp (RecvData.decoded v) = Except.ok st) ∧
    (∀ (st : DiscoveryState) (health : PeerHandle → Bool)
        (ds : List (ℚ × String × RecvData)),
      (∀ d ∈ ds, ∃ v, d.2.2 = RecvData.decoded v ∧
        v.getItem "type" = Except.ok (JsonValue.str "discovery") ∧
        v.getItem "node_id" = Except.ok (JsonValue.str st.nodeId)) →
      processAll health st ds = Except.ok st) := by
  constructor
  · intro st health now srcIp v hdrop
    rcases hdrop with ⟨t, ht, hf⟩ | ⟨ht, hn⟩
    · simp only [onListenMessage, ht, except_bind_ok]
      rw [if_neg (by rw [hf]; exact Bool.false_ne_true)]
    · exact onListenMessage_self_drop st health now srcIp v ht hn
  · intro st health ds
    induction ds with
    | nil => intro _; rfl
    | cons d rest ih =>
      intro hall
      obtain ⟨v, hv, ht, hn⟩ := hall d (List.mem_cons_self _ _)
      have hstep : onListenMessage st health d.1 d.2.1 d.2.2 = Except.ok st := by
        rw [hv]
        exact onListenMessage_self_drop st health d.1 d.2.1 v ht hn
      show (onListenMessage st health d.1 d.2.1 d.2.2 >>=
        fun s => List.foldlM _ s rest) = Except.ok st
      rw [hstep, except_bind_ok]
      exact ih fun q hq => hall q (List.mem_cons_of_mem _ hq)

theorem onListenMessage_drop_preserves_peers_witness :
    ((JsonValue.obj [("type", JsonValue.str "discovery"),
        ("node_id", JsonValue.str "me")]).getItem "type"
      = Except.ok (JsonValue.str "discovery") ∧
      (JsonValue.obj [("type", JsonValue.str "discovery"),
        ("node_id", JsonValue.str "me")]).getItem "node_id"
      = Except.ok (JsonValue.str "me")) ∧
    onListenMessage ⟨"me", []⟩ (fun _ => true) 0 "10.0.0.7"
      (RecvData.decoded (JsonValue.obj [("type", JsonValue.str "discovery"),
        ("node_id", JsonValue.str "me")])) = Except.ok ⟨"me", []⟩ :=
  ⟨⟨rfl, rfl⟩,
    onListenMessage_drop_preserves_peers.1 ⟨"me", []⟩ (fun _ => true) 0 "10.0.0.7"
      (JsonValue.obj [("type", JsonValue.str "discovery"),
        ("node_id", JsonValue.str "me")])
      (Or.inr ⟨rfl, rfl⟩)⟩

/-- C9 (amended): empty datagrams, non-JSON-looking text and
undecodable payloads are indeed dropped silently, but a decoded JSON
ARRAY raises an uncaught `TypeError` (`message["type"]` on a list) and
a decoded object MISSING the `type` key raises an uncaught `KeyError`
— the handler does not return normally on those, contrary to the
claim; `known_peers` is still never modified (no successful return
carries a different table). -/
theorem onListenMessage_malformed :
    (∀ (st : DiscoveryState) (health : PeerHandle → Bool) (now : ℚ)
        (srcIp : String) (s : String),
      onListenMessage st health now srcIp RecvData.empty = Except.ok st ∧
      onListenMessage st health now srcIp (RecvData.invalidText s) = Except.ok st ∧
      onListenMessage st health now srcIp (RecvData.undecodable s) = Except.ok st) ∧
    (∀ (st : DiscoveryState) (health : PeerHandle → Bool) (now : ℚ)
        (srcIp : String) (elems : List JsonValue),
      onListenMessage st health now srcIp (RecvData.decoded (JsonValue.arr elems))
        = Except.error PyErr.typeError) ∧
    (∀ (st : DiscoveryState) (health : PeerHandle → Bool) (now : ℚ)
        (srcIp : String) (fields : List (String × JsonValue)),
      fields.lookup "type" = none →
      onListenMessage st health now srcIp (RecvData.decoded (JsonValue.obj fields))
        = Except.error (PyErr.keyError "type")) := by
  refine ⟨fun _ _ _ _ _ => ⟨rfl, rfl, rfl⟩, fun _ _ _ _ _ => rfl, ?_⟩
  intro st health now srcIp fields hnone
  simp only [onListenMessage, JsonValue.getItem, hnone, except_bind_err]

theorem onListenMessage_malformed_witness :
    (([] : List (String × JsonValue)).lookup "type" = none) ∧
    onListenMessage ⟨"me", []⟩ (fun _ => true) 0 "10.0.0.7" RecvData.empty
      = Except.ok ⟨"me", []⟩ ∧
    onListenMessage ⟨"me", []⟩ (fun _ => true) 0 "10.0.0.7"
      (RecvData.decoded (JsonValue.obj []))
      = Except.error (PyErr.keyError "type") :=
  ⟨rfl,
    (onListenMessage_malformed.1 ⟨"me", []⟩ (fun _ => true) 0 "10.0.0.7" "x").1,
    onListenMessage_malformed.2.2 ⟨"me", []⟩ (fun _ => true) 0 "10.0.0.7" [] rfl⟩

/-- C9 (counterexample): a datagram decoding to the JSON array `[]` —
one of the malformed shapes the claim says are dropped without an
exception — makes `on_listen_message` raise `TypeError`
(`message["type"]` with a string index on a list). -/
theorem onListenMessage_array_raises :
    onListenMessage ⟨"me", []⟩ (fun _ => true) 0 "10.0.0.7"
      (RecvData.decoded (JsonValue.arr [])) = Except.error PyErr.typeError := rfl

end UDPDiscovery

end ExoLarson
